import Mathlib

/-!
Verification of the VaultKit indexing and query engine.

The definitions below are a shallow embedding of the TypeScript source:
`src/graph.ts` (graph construction, name resolution, BFS traversal,
content search) and `src/filter.ts` (the generic filter / pagination
pipeline).  JavaScript `Map` and `Set` objects are modelled as
insertion-ordered lists, JavaScript strings as Lean strings over their
scalar-value character lists, and `Date` values as epoch milliseconds.
Behaviour supplied by the JavaScript runtime (`RegExp`, `Date` parsing,
Unicode NFD normalization, `toLowerCase`) is modelled partially, on the
fragment the verified claims exercise; each such model carries a doc
comment saying exactly what it covers.
-/

namespace VaultKit

/-- Characters treated as whitespace by JavaScript `String.prototype.trim`
(model restricted to the ASCII whitespace characters). -/
def isJsSpace (c : Char) : Bool :=
  c = ' ' || c = '\t' || c = '\n' || c = '\r' || c = '\x0b' || c = '\x0c'

/-- JavaScript `trim`: drop whitespace from both ends of the character list. -/
def trimChars (l : List Char) : List Char :=
  ((l.dropWhile isJsSpace).reverse.dropWhile isJsSpace).reverse

/-- JavaScript `toLowerCase`, modelled on the ASCII range: `A`–`Z` map to
`a`–`z`; every other character is unchanged. -/
def jsCharLower (c : Char) : Char :=
  if 'A' ≤ c && c ≤ 'Z' then Char.ofNat (c.toNat + 32) else c

/-- Lowercase a whole character list. -/
def lowerChars (l : List Char) : List Char := l.map jsCharLower

/-- `normalize` from `graph.ts`: `name.trim().toLowerCase()`. -/
def normalize (name : String) : String := ⟨lowerChars (trimChars name.data)⟩

/-- The characters removed by `replace(/[-_]/g, "")` in `normalizeFuzzy`. -/
def isDashChar (c : Char) : Bool := c = '-' || c = '_'

/-- Model of Unicode NFD decomposition, per character.  NFD is the identity
on ASCII; a small table of Latin letters with diacritics decomposes to the
base letter followed by its combining mark, standing in for the full Unicode
table the JavaScript runtime provides.  Characters outside the table are
left undecomposed. -/
def nfdChar (c : Char) : List Char :=
  match c with
  | 'á' => ['a', '́']
  | 'à' => ['a', '̀']
  | 'â' => ['a', '̂']
  | 'ä' => ['a', '̈']
  | 'é' => ['e', '́']
  | 'è' => ['e', '̀']
  | 'ê' => ['e', '̂']
  | 'ë' => ['e', '̈']
  | 'í' => ['i', '́']
  | 'ó' => ['o', '́']
  | 'ö' => ['o', '̈']
  | 'ú' => ['u', '́']
  | 'ü' => ['u', '̈']
  | 'ñ' => ['n', '̃']
  | 'ç' => ['c', '̧']
  | _ => [c]

/-- NFD over a character list. -/
def nfdChars (l : List Char) : List Char := l.flatMap nfdChar

/-- `replace(/[^\x00-\x7F]/g, "")`: keep only ASCII characters. -/
def asciiOnly (l : List Char) : List Char := l.filter (fun c => c.toNat ≤ 127)

/-- `normalizeFuzzy` from `graph.ts`: trim, lowercase, strip `-` and `_`,
NFD-decompose, drop non-ASCII characters. -/
def normalizeFuzzy (name : String) : String :=
  ⟨asciiOnly (nfdChars ((lowerChars (trimChars name.data)).filter
    (fun c => !isDashChar c)))⟩

/-- Does `pat` occur at the head of `l`? -/
def startsWithChars (l pat : List Char) : Bool :=
  match l, pat with
  | _, [] => true
  | [], _ :: _ => false
  | a :: as, b :: bs => a = b && startsWithChars as bs

/-- Does `pat` occur anywhere inside `l`? -/
def containsChars (pat l : List Char) : Bool :=
  match l with
  | [] => pat.isEmpty
  | _ :: rest => startsWithChars l pat || containsChars pat rest

/-- JavaScript `String.prototype.includes`. -/
def jsIncludes (s sub : String) : Bool := containsChars sub.data s.data

/-- Drop a single trailing carriage return, used when splitting on `/\r?\n/`. -/
def dropTrailingCR (l : List Char) : List Char :=
  match l.reverse with
  | '\r' :: rest => rest.reverse
  | _ => l

/-- Helper for `splitLinesJS`: every piece except the last was followed by a
newline, so a carriage return immediately before that newline is consumed. -/
def splitLinesAux : List String → List String
  | [] => []
  | [s] => [s]
  | s :: rest => (⟨dropTrailingCR s.data⟩ : String) :: splitLinesAux rest

/-- JavaScript `content.split(/\r?\n/)`: split on every newline, consuming an
immediately preceding carriage return. -/
def splitLinesJS (content : String) : List String :=
  splitLinesAux (content.splitOn "\n")

/-- Partial model of JavaScript regular-expression compilation errors: a
pattern whose character class opened by `[` is never closed, or that ends in
a lone backslash, throws a `SyntaxError` in `new RegExp`.  The boolean
argument tracks whether the scan is currently inside a character class. -/
def regexpBadPattern (inClass : Bool) : List Char → Bool
  | [] => inClass
  | ['\\'] => true
  | '\\' :: _ :: rest => regexpBadPattern inClass rest
  | c :: rest =>
    if inClass then
      if c = ']' then regexpBadPattern false rest else regexpBadPattern true rest
    else
      if c = '[' then regexpBadPattern true rest else regexpBadPattern inClass rest

/-- Partial model of `new RegExp(pattern, "i")`: compilation fails (the model
returns `none`, the runtime throws `SyntaxError`) on a malformed pattern per
`regexpBadPattern`; a compiled regex is modelled by its `test` predicate,
rendered here as a case-insensitive substring test, which is faithful for
metacharacter-free patterns — the only compiled patterns the claims under
verification exercise. -/
def jsRegExpCompileI (pattern : String) : Option (String → Bool) :=
  if regexpBadPattern false pattern.data then none
  else some (fun s => jsIncludes ⟨lowerChars s.data⟩ ⟨lowerChars pattern.data⟩)

/-- Parse a non-empty all-digit character list. -/
def parseNatDigits (l : List Char) : Option Nat :=
  if l ≠ [] && l.all (fun c => c.isDigit) then
    some (l.foldl (fun acc c => acc * 10 + (c.toNat - 48)) 0)
  else none

/-- Days from the civil epoch 1970-01-01 (Howard Hinnant's algorithm); used
only with four-digit years, where all intermediate values are non-negative. -/
def daysFromCivil (y m d : Int) : Int :=
  let y2 : Int := if m ≤ 2 then y - 1 else y
  let era : Int := (if y2 ≥ 0 then y2 else y2 - 399) / 400
  let yoe : Int := y2 - era * 400
  let mp : Int := (m + 9) % 12
  let doy : Int := (153 * mp + 2) / 5 + d - 1
  let doe : Int := yoe * 365 + yoe / 4 - yoe / 100 + doy
  era * 146097 + doe - 719468

/-- Partial model of JavaScript `new Date(string)`: an ISO `YYYY-MM-DD`
string parses to its UTC epoch-millisecond value; everything else is an
Invalid Date, modelled as `none` (comparisons against an Invalid Date are
always false, matching NaN semantics).  Day-of-month validation is
simplified to the range 1–31. -/
def jsNewDate (s : String) : Option Int :=
  match s.splitOn "-" with
  | [ys, ms, ds] =>
    match parseNatDigits ys.data, parseNatDigits ms.data, parseNatDigits ds.data with
    | some y, some m, some d =>
      if 1 ≤ m && m ≤ 12 && 1 ≤ d && d ≤ 31 then
        some (86400000 * daysFromCivil (Int.ofNat y) (Int.ofNat m) (Int.ofNat d))
      else none
    | _, _, _ => none
  | _ => none

/-- One parsed wikilink, restricted to the field the graph code reads. -/
structure Wikilink where
  name : String
deriving Repr, DecidableEq

/-- The `Note` record from `types.ts`, restricted to the fields the functions
under verification read.  `mtime` is epoch milliseconds; `frontmatter` is an
opaque payload carried through unchanged. -/
structure Note where
  path : String
  name : String
  content : String
  frontmatter : Option String
  wikilinks : List Wikilink
  frontmatterTags : List String
  inlineTags : List String
  tags : List String
  mtime : Int
deriving Repr, DecidableEq

/-- A JavaScript `Map` with string keys, modelled as an insertion-ordered
association list. -/
abbrev JsMap (α : Type) : Type := List (String × α)

/-- `Map.prototype.get`: the value stored under the key (keys are unique in
a `Map`, so the first match is the match). -/
def mget {α : Type} (m : JsMap α) (k : String) : Option α :=
  match m with
  | [] => none
  | p :: tl => if p.1 = k then some p.2 else mget tl k

/-- `Map.prototype.has`. -/
def mhas {α : Type} (m : JsMap α) (k : String) : Bool := (mget m k).isSome

/-- `Map.prototype.set`: overwrite in place when the key is present (keeping
its position), append otherwise. -/
def mset {α : Type} (m : JsMap α) (k : String) (v : α) : JsMap α :=
  if mhas m k then m.map (fun p => if p.1 = k then (k, v) else p)
  else m ++ [(k, v)]

/-- `Set.prototype.add` on an insertion-ordered list with distinct elements. -/
def saddUnique (s : List String) (x : String) : List String :=
  if x ∈ s then s else s ++ [x]

/-- Helper for `dedupFirst`, carrying the set of elements already emitted. -/
def dedupFirstAux (seen : List String) : List String → List String
  | [] => []
  | x :: xs =>
    if x ∈ seen then dedupFirstAux seen xs else x :: dedupFirstAux (x :: seen) xs

/-- `[...new Set(list)]`: deduplicate keeping first occurrences. -/
def dedupFirst (l : List String) : List String := dedupFirstAux [] l

/-- `FilterOptions` from `filter.ts`. -/
structure FilterOptions where
  folder : Option String := none
  excludeFolders : Option (List String) := none
  excludePattern : Option String := none
  modifiedAfter : Option String := none
  modifiedBefore : Option String := none
  tags : Option (List String) := none
  excludeTags : Option (List String) := none

/-- `PaginationOpts` from `filter.ts`. -/
structure PaginationOpts where
  limit : Option Nat := none
  offset : Option Nat := none

/-- `PaginatedResult<T>` from `filter.ts`. -/
structure PaginatedResult (α : Type) where
  total : Nat
  offset : Nat
  limit : Nat
  results : List α
deriving Repr

/-- `CompiledFilter` from `filter.ts`.  A compiled regex is modelled by its
`test` predicate.  A compiled date bound is `some none` when the bound string
was given but parsed to an Invalid Date (whose NaN comparisons are always
false) and `some (some t)` when it parsed to epoch milliseconds `t`. -/
structure CompiledFilter where
  folder : Option String := none
  excludeFolders : Option (List String) := none
  excludeRe : Option (String → Bool) := none
  modifiedAfter : Option (Option Int) := none
  modifiedBefore : Option (Option Int) := none
  tagSet : Option (List String) := none
  excludeTagSet : Option (List String) := none

/-- `compileExcludePattern` from `filter.ts`: an absent or empty (falsy)
pattern yields no regex; a pattern that fails to compile is caught and also
yields no regex (`undefined`). -/
def compileExcludePattern (pattern : Option String) : Option (String → Bool) :=
  match pattern with
  | none => none
  | some p => if p = "" then none else jsRegExpCompileI p

/-- `t.replace(/^#/, "")`: strip one leading hash. -/
def stripLeadingHash (t : String) : String :=
  match t.data with
  | '#' :: rest => ⟨rest⟩
  | _ => t

/-- `normalizeTagSet` from `filter.ts`. -/
def normalizeTagSet (tags : Option (List String)) : Option (List String) :=
  match tags with
  | none => none
  | some ts =>
    if ts = [] then none
    else some (dedupFirst (ts.map (fun t => ⟨lowerChars (stripLeadingHash t).data⟩)))

/-- `compileFilter` from `filter.ts`.  An empty (falsy) date-bound string
yields no bound, matching `opts.modifiedAfter ? new Date(...) : undefined`. -/
def compileFilter (opts : FilterOptions) : CompiledFilter :=
  { folder := opts.folder
    excludeFolders := opts.excludeFolders
    excludeRe := compileExcludePattern opts.excludePattern
    modifiedAfter :=
      match opts.modifiedAfter with
      | none => none
      | some s => if s = "" then none else some (jsNewDate s)
    modifiedBefore :=
      match opts.modifiedBefore with
      | none => none
      | some s => if s = "" then none else some (jsNewDate s)
    tagSet := normalizeTagSet opts.tags
    excludeTagSet := normalizeTagSet opts.excludeTags }

/-- `paginate` from `filter.ts`: `items.slice(offset, offset + limit)` with
defaults `limit = 50`, `offset = 0`. -/
def paginate {α : Type} (items : List α) (opts : PaginationOpts) : PaginatedResult α :=
  let limit := opts.limit.getD 50
  let offset := opts.offset.getD 0
  { total := items.length
    offset := offset
    limit := limit
    results := (items.drop offset).take limit }

/-- `ensureTrailingSlash` from `filter.ts`. -/
def ensureTrailingSlash (path : String) : String :=
  if path.data.getLast? = some '/' then path else path ++ "/"

/-- `isNoteInFolder` from `filter.ts`: the note's path relative to the vault
root must start with the folder scope (normalized to end in `/`). -/
def isNoteInFolder (note : Note) (vaultPath : String) (folderScope : String) : Bool :=
  let relPath := note.path.data.drop (vaultPath.length + 1)
  startsWithChars relPath (ensureTrailingSlash folderScope).data

/-- `isNoteInExcludedFolder` from `filter.ts`. -/
def isNoteInExcludedFolder (note : Note) (vaultPath : String)
    (excludeFolders : List String) : Bool :=
  let relPath := note.path.data.drop (vaultPath.length + 1)
  excludeFolders.any (fun f => startsWithChars relPath (ensureTrailingSlash f).data)

/-- `passesExcludePattern` from `filter.ts`: with no compiled regex every
note passes; otherwise the note passes when its name does not match. -/
def passesExcludePattern (noteName : String) (re : Option (String → Bool)) : Bool :=
  match re with
  | none => true
  | some test => !(test noteName)

/-- `hasMatchingTag` from `filter.ts`. -/
def hasMatchingTag (note : Note) (tagSet : List String) : Bool :=
  note.frontmatterTags.any (fun t => tagSet.contains (⟨lowerChars t.data⟩ : String)) ||
  note.inlineTags.any (fun t => tagSet.contains (⟨lowerChars t.data⟩ : String))

/-- `note.mtime < bound` on a `Date` bound: false when the bound is an
Invalid Date (NaN comparisons are always false). -/
def jsDateLt (m : Int) (d : Option Int) : Bool :=
  match d with
  | some v => decide (m < v)
  | none => false

/-- `note.mtime > bound` on a `Date` bound: false when the bound is an
Invalid Date. -/
def jsDateGt (m : Int) (d : Option Int) : Bool :=
  match d with
  | some v => decide (m > v)
  | none => false

/-- The lower date bound of `passesCompiledFilter`:
`cf.modifiedAfter && note.mtime < cf.modifiedAfter` rejects the note. -/
def failsModifiedAfter (note : Note) (cf : CompiledFilter) : Bool :=
  match cf.modifiedAfter with
  | some d => jsDateLt note.mtime d
  | none => false

/-- The upper date bound of `passesCompiledFilter`:
`cf.modifiedBefore && note.mtime > cf.modifiedBefore` rejects the note. -/
def failsModifiedBefore (note : Note) (cf : CompiledFilter) : Bool :=
  match cf.modifiedBefore with
  | some d => jsDateGt note.mtime d
  | none => false

/-- `passesCompiledFilter` from `filter.ts`: the conjunction of all active
predicates, in source order.  A present `folder` is active when non-empty
(string truthiness); present `excludeFolders`, date bounds and tag sets are
always truthy in JavaScript (arrays, `Date` and `Set` objects). -/
def passesCompiledFilter (note : Note) (vaultPath : String) (cf : CompiledFilter) : Bool :=
  if (match cf.folder with
      | some f => !(f = "") && !isNoteInFolder note vaultPath f
      | none => false) then false
  else if (match cf.excludeFolders with
      | some fs => isNoteInExcludedFolder note vaultPath fs
      | none => false) then false
  else if !passesExcludePattern note.name cf.excludeRe then false
  else if failsModifiedAfter note cf then false
  else if failsModifiedBefore note cf then false
  else if (match cf.tagSet with
      | some ts => !hasMatchingTag note ts
      | none => false) then false
  else if (match cf.excludeTagSet with
      | some ts => hasMatchingTag note ts
      | none => false) then false
  else true

/-- `filterNotes` from `filter.ts`: rebuild the map keeping the entries whose
note passes the compiled filter, in order. -/
def filterNotes (notes : JsMap Note) (vaultPath : String) (opts : FilterOptions) : JsMap Note :=
  let cf := compileFilter opts
  notes.filter (fun p => passesCompiledFilter p.2 vaultPath cf)

/-- `GraphState` from `graph.ts`. -/
structure GraphState where
  vaultPath : String
  notes : JsMap Note
  forward : JsMap (List String)
  backward : JsMap (List String)
  missing : JsMap (List String)

/-- The deduplicated normalized link targets of one note:
`[...new Set(note.wikilinks.map((wl) => normalize(wl.name)))]`. -/
def targetsOf (note : Note) : List String :=
  dedupFirst (note.wikilinks.map (fun wl => normalize wl.name))

/-- `map.get(k)!.add(v)` after a default-empty `map.set(k, new Set())` when
the key is absent, as in `buildAdjacency`. -/
def addToSetMap (m : JsMap (List String)) (k v : String) : JsMap (List String) :=
  match mget m k with
  | some s => mset m k (saddUnique s v)
  | none => m ++ [(k, [v])]

/-- The three maps produced by `buildAdjacency`. -/
structure Adjacency where
  forward : JsMap (List String)
  backward : JsMap (List String)
  missing : JsMap (List String)

/-- The body of `buildAdjacency`'s inner loop for one target of a source:
add the source to the target's `backward` set, and to its `missing` set when
the target key is not a note. -/
def adjTargetStep (notes : JsMap Note) (src : String)
    (bm : JsMap (List String) × JsMap (List String)) (t : String) :
    JsMap (List String) × JsMap (List String) :=
  (addToSetMap bm.1 t src, if mhas notes t then bm.2 else addToSetMap bm.2 t src)

/-- The body of `buildAdjacency`'s outer loop for one `[sourceKey, note]`
entry: set the forward edge set, then fold each target into `backward`, and
into `missing` when the target key is not a note. -/
def buildAdjacencyStep (notes : JsMap Note) (acc : Adjacency) (entry : String × Note) :
    Adjacency :=
  let targets := targetsOf entry.2
  let fwd := mset acc.forward entry.1 targets
  let bm := targets.foldl (adjTargetStep notes entry.1) (acc.backward, acc.missing)
  ⟨fwd, bm.1, bm.2⟩

/-- `buildAdjacency` from `graph.ts`. -/
def buildAdjacency (notes : JsMap Note) : Adjacency :=
  notes.foldl (buildAdjacencyStep notes) ⟨[], [], []⟩

/-- `fuzzyResolve` from `graph.ts`: linear scan of the notes map in insertion
order, returning the first note whose fuzzy key equals the input's. -/
def fuzzyResolve (name : String) (state : GraphState) : Option Note :=
  let target := normalizeFuzzy name
  (state.notes.map (fun p => p.2)).find? (fun note => normalizeFuzzy note.name == target)

/-- `resolve` from `graph.ts`: exact stage on the normalized key, then the
fuzzy stage. -/
def resolve (name : String) (state : GraphState) : Option Note :=
  match mget state.notes (normalize name) with
  | some note => some note
  | none => fuzzyResolve name state

/-- One output node of `traverse`. -/
structure TraverseNode where
  name : String
  path : String
  depth : Nat
  frontmatter : Option String
  tags : List String
deriving Repr, DecidableEq

/-- One unresolved-target record of `traverse`. -/
structure MissingRecord where
  name : String
  referenced_by : List String
deriving Repr, DecidableEq

/-- The observable outcomes of `traverse`: the value-level error result for
an unresolved root, a successful traversal, `crash` for the `TypeError` the
JavaScript code throws when the non-null assertion `state.notes.get(key)!`
yields `undefined`, and `fuelOut` marking exhaustion of the explicit fuel
that stands in for the unbounded `while` loop (shown unreachable). -/
inductive TraverseResult where
  | error (message : String) : TraverseResult
  | fuelOut : TraverseResult
  | crash : TraverseResult
  | ok (root : String) (depth : Nat) (notes : List TraverseNode)
      (missing : List MissingRecord) : TraverseResult
deriving Repr, DecidableEq

/-- One target of a newly visited node in the BFS loop: a target that is a
note is enqueued one depth deeper, any other is added to the missing set. -/
def expandStep (state : GraphState) (depth : Nat)
    (acc : List (String × Nat) × List String) (t : String) :
    List (String × Nat) × List String :=
  if mhas state.notes t then (acc.1 ++ [(t, depth + 1)], acc.2)
  else (acc.1, saddUnique acc.2 t)

/-- The expansion of a newly visited node's targets in the BFS loop. -/
def expandTargets (state : GraphState) (depth : Nat) (targets : List String)
    (missingFound : List String) : List (String × Nat) × List String :=
  targets.foldl (expandStep state depth) ([], missingFound)

/-- The BFS `while` loop of `traverse`, with explicit fuel (`none` = fuel ran
out; `traverse` passes fuel shown always sufficient).  `visited` is the
insertion-ordered `Map<string, number>`; a dequeued key already visited is
skipped, otherwise it is recorded and, when `depth < maxDepth`, its forward
targets are expanded. -/
def bfsLoop (state : GraphState) (maxDepth : Nat) :
    Nat → List (String × Nat) → List (String × Nat) → List String →
    Option (List (String × Nat) × List String)
  | _, [], visited, missingFound => some (visited, missingFound)
  | 0, _ :: _, _, _ => none
  | fuel + 1, (key, depth) :: rest, visited, missingFound =>
    if mhas visited key then bfsLoop state maxDepth fuel rest visited missingFound
    else
      let visited2 := visited ++ [(key, depth)]
      if depth < maxDepth then
        match mget state.forward key with
        | some targets =>
          let em := expandTargets state depth targets missingFound
          bfsLoop state maxDepth fuel (rest ++ em.1) visited2 em.2
        | none => bfsLoop state maxDepth fuel rest visited2 missingFound
      else bfsLoop state maxDepth fuel rest visited2 missingFound

/-- The size of a key's forward edge set. -/
def degreeOf (state : GraphState) (k : String) : Nat :=
  ((mget state.forward k).getD []).length

/-- Every key the BFS can ever enqueue: the start key and the note keys. -/
def keyUniverse (state : GraphState) (startKey : String) : List String :=
  dedupFirst (startKey :: state.notes.map (fun p => p.1))

/-- The termination measure's weight of the not-yet-visited keys of `u`:
one unit for the visit itself plus one per forward edge. -/
def unvisitedWeight (state : GraphState) (visited : List (String × Nat)) :
    List String → Nat
  | [] => 0
  | k :: rest =>
    (if mhas visited k then 0 else 1 + degreeOf state k) +
      unvisitedWeight state visited rest

/-- The fuel `traverse` hands to `bfsLoop`: the initial queue length plus the
total weight of the key universe. -/
def bfsFuel (state : GraphState) (startKey : String) : Nat :=
  1 + unvisitedWeight state [] (keyUniverse state startKey)


/-- The output comparator of `traverse`:
`a.depth - b.depth || a.name.localeCompare(b.name)` (lexicographic string
order standing in for `localeCompare`). -/
def nodeLe (a b : TraverseNode) : Bool :=
  decide (a.depth < b.depth) || (a.depth == b.depth && decide (a.name ≤ b.name))

/-- Insert an element into a sorted list (model of the `Array.prototype.sort`
result: stable, ordered by the comparator). -/
def insertSorted {α : Type} (le : α → α → Bool) (x : α) : List α → List α
  | [] => [x]
  | y :: ys => if le x y then x :: y :: ys else y :: insertSorted le x ys

/-- Stable insertion sort, modelling `Array.prototype.sort(comparator)`. -/
def sortBy {α : Type} (le : α → α → Bool) : List α → List α
  | [] => []
  | x :: xs => insertSorted le x (sortBy le xs)

/-- `traverse` from `graph.ts`: resolve the root (error result on failure),
BFS from the normalized root key, then map every visited key through the
notes map (`state.notes.get(key)!` — a failed lookup is the thrown
`TypeError`, `crash`), sort, and attach the missing-link records. -/
def traverse (noteName : String) (maxDepth : Nat) (state : GraphState) : TraverseResult :=
  match resolve noteName state with
  | none => .error ("Note '" ++ noteName ++ "' not found")
  | some startNote =>
    let startKey := normalize noteName
    match bfsLoop state maxDepth (bfsFuel state startKey) [(startKey, 0)] [] [] with
    | none => .fuelOut
    | some (visited, missingFound) =>
      match visited.mapM (fun kd =>
          (mget state.notes kd.1).map (fun note =>
            ({ name := note.name, path := note.path, depth := kd.2,
               frontmatter := note.frontmatter, tags := note.tags } : TraverseNode))) with
      | none => .crash
      | some nodes =>
        .ok startNote.name maxDepth (sortBy nodeLe nodes)
          (missingFound.map (fun n =>
            ({ name := n, referenced_by := (mget state.missing n).getD [] } : MissingRecord)))

/-- One content-search hit. -/
structure SearchHit where
  file : String
  path : String
  line : Nat
  text : String
deriving Repr, DecidableEq

/-- The matching lines of one note for the lowercased query `q`, in line
order: 1-based line number, trimmed text. -/
def noteHits (q : String) (note : Note) : List SearchHit :=
  (splitLinesJS note.content).enum.filterMap (fun p =>
    if jsIncludes ⟨lowerChars p.2.data⟩ q then
      some { file := note.name, path := note.path, line := p.1 + 1,
             text := ⟨trimChars p.2.data⟩ }
    else none)

/-- One matching line of the `search` loop: always count it towards `total`,
materialize it only while fewer than `needed = offset + limit` hits are
collected. -/
def searchStepLine (needed : Nat) (acc : Nat × List SearchHit) (hit : SearchHit) :
    Nat × List SearchHit :=
  (acc.1 + 1, if acc.2.length < needed then acc.2 ++ [hit] else acc.2)

/-- `search` from `graph.ts`: scan every note line by line, case-insensitive
substring match, counting all matches but materializing only the first
`offset + limit`, then slice the page. -/
def search (query : String) (state : GraphState) (opts : PaginationOpts) :
    PaginatedResult SearchHit :=
  let limit := opts.limit.getD 50
  let offset := opts.offset.getD 0
  let q : String := ⟨lowerChars query.data⟩
  let needed := offset + limit
  let tc := state.notes.foldl
    (fun acc p => (noteHits q p.2).foldl (searchStepLine needed) acc) (0, [])
  { total := tc.1, offset := offset, limit := limit,
    results := (tc.2.drop offset).take limit }

/-- The full match list of `search`, in scan order — the reference list the
pagination claim compares the returned page against. -/
def searchAllHits (query : String) (state : GraphState) : List SearchHit :=
  state.notes.flatMap (fun p => noteHits (⟨lowerChars query.data⟩ : String) p.2)

/-- The edge set stored under a key of an adjacency map (empty when absent). -/
def adjSet (m : JsMap (List String)) (k : String) : List String :=
  (mget m k).getD []

/-- Two characters that are equal or are both dash/underscore — the per-
character relation behind "differs only by interchanging `-` and `_`". -/
def duCharOk (a b : Char) : Bool := a = b || (isDashChar a && isDashChar b)

/-- Two character lists that differ only by interchanging `-` and `_`. -/
def duVariantChars : List Char → List Char → Bool
  | [], [] => true
  | a :: as, b :: bs => duCharOk a b && duVariantChars as bs
  | _, _ => false

/-- Two strings that differ only by interchanging `-` and `_`. -/
def duVariant (a b : String) : Bool := duVariantChars a.data b.data

/-- The invariant `buildGraph` establishes on the notes map: every note is
stored under its normalized name, and keys are distinct (a `Map` never holds
a key twice). -/
def WellFormedNotes (notes : JsMap Note) : Prop :=
  (∀ p ∈ notes, p.1 = normalize p.2.name) ∧ (notes.map Prod.fst).Nodup

/-- A minimal note fixture. -/
def mkNote (name : String) (links : List String) : Note :=
  { path := "/v/" ++ name ++ ".md", name := name, content := "", frontmatter := none,
    wikilinks := links.map (fun l => ⟨l⟩), frontmatterTags := [], inlineTags := [],
    tags := [], mtime := 0 }

/-- A note whose name mixes underscores, used in the failing inputs. -/
def exNoteA : Note := mkNote "Note_A" []

/-- A one-note graph state holding `exNoteA` under its normalized key. -/
def exStateA : GraphState :=
  { vaultPath := "/v", notes := [("note_a", exNoteA)],
    forward := [("note_a", [])], backward := [], missing := [] }

/-- `Note A ↔ Note B` plus a broken link `Ghost`, for witnesses. -/
def exNotesAB : JsMap Note :=
  [("note a", mkNote "Note A" ["Note B", "Ghost"]), ("note b", mkNote "Note B" ["Note A"])]

/-- The graph state built over `exNotesAB`. -/
def exStateAB : GraphState :=
  { vaultPath := "/v", notes := exNotesAB,
    forward := (buildAdjacency exNotesAB).forward,
    backward := (buildAdjacency exNotesAB).backward,
    missing := (buildAdjacency exNotesAB).missing }

/-- A one-note state whose note name uses underscores, for the fuzzy witness. -/
def exStateDU : GraphState :=
  { vaultPath := "/v", notes := [("note_with_dashes", mkNote "Note_With_Dashes" [])],
    forward := [("note_with_dashes", [])], backward := [], missing := [] }

/-- The traversal node for `Note A` at depth 0 in the fixture traversal. -/
def exNodeA : TraverseNode :=
  { name := "Note A", path := "/v/Note A.md", depth := 0, frontmatter := none, tags := [] }

/-- The traversal node for `Note B` at depth 1 in the fixture traversal. -/
def exNodeB : TraverseNode :=
  { name := "Note B", path := "/v/Note B.md", depth := 1, frontmatter := none, tags := [] }

/-- The missing-link record for `ghost` in the fixture traversal. -/
def exMissGhost : MissingRecord := { name := "ghost", referenced_by := ["note a"] }

/-- C1: the spec demands fail-closed behaviour for an uncompilable
`excludePattern` (zero documents match, `total == 0`), and the repository's
own test suite asserts exactly that; the code instead swallows the
compilation error into "no regex", so `passesExcludePattern` lets every
note through and `filterNotes` returns the whole map — fail-open.  This
theorem evaluates the pipeline at the failing input `"[invalid"`: the
pattern fails to compile, yet a one-note map filters to itself rather than
to the empty map. -/
theorem excludePattern_invalid_fail_open :
    compileExcludePattern (some "[invalid") = none ∧
    passesExcludePattern "Note_A" (compileExcludePattern (some "[invalid")) = true ∧
    filterNotes [("note_a", exNoteA)] "/v" { excludePattern := some "[invalid" } =
      [("note_a", exNoteA)] ∧
    (filterNotes [("note_a", exNoteA)] "/v" { excludePattern := some "[invalid" }).length ≠ 0 :=
  ⟨rfl, rfl, by decide, by decide⟩

/-- C2: a root that only the fuzzy stage resolves breaks `traverse`: the BFS
starts from `normalize(noteName)`, which is not a key of the notes map
(otherwise the exact stage would have hit), so the non-null assertion
`state.notes.get(key)!` yields `undefined` and the JavaScript code throws a
`TypeError` instead of returning the traversal.  Failing input: a vault
holding only `"Note_A"`, traversed from `"Note-A"`. -/
theorem traverse_fuzzy_root_crashes :
    resolve "Note-A" exStateA = some exNoteA ∧
    mget exStateA.notes (normalize "Note-A") = none ∧
    traverse "Note-A" 1 exStateA = TraverseResult.crash := by
  decide

/-- C3: the claim (and spec) call the date bounds inclusive-exclusive, with a
note whose `modifiedTime` equals `modifiedBefore` excluded.  The code
rejects on `note.mtime > cf.modifiedBefore`, so equality passes: the upper
bound is inclusive.  Counterexample: a note with `mtime = 0` against
`modifiedBefore = 0` passes the filter. -/
theorem modifiedBefore_equal_passes :
    exNoteA.mtime = 0 ∧
    failsModifiedBefore exNoteA { modifiedBefore := some (some 0) } = false ∧
    passesCompiledFilter exNoteA "/v" { modifiedBefore := some (some 0) } = true := by
  decide

/-- C3 (amended): both date bounds are inclusive: a note whose `modifiedTime`
equals `modifiedAfter` passes the lower bound, and a note whose
`modifiedTime` equals `modifiedBefore` also passes the upper bound; a note
sitting exactly on both bounds passes the whole date filter. -/
theorem date_bounds_inclusive (note : Note) (vaultPath : String) (t : Int)
    (h : note.mtime = t) :
    failsModifiedAfter note { modifiedAfter := some (some t) } = false ∧
    failsModifiedBefore note { modifiedBefore := some (some t) } = false ∧
    passesCompiledFilter note vaultPath
      { modifiedAfter := some (some t), modifiedBefore := some (some t) } = true := by
  simp [failsModifiedAfter, failsModifiedBefore, passesCompiledFilter, jsDateLt, jsDateGt,
    passesExcludePattern, h]

/-- Witness for `date_bounds_inclusive` at a concrete note and bound. -/
theorem date_bounds_inclusive_witness :
    exNoteA.mtime = 0 ∧
    failsModifiedAfter exNoteA { modifiedAfter := some (some 0) } = false ∧
    failsModifiedBefore exNoteA { modifiedBefore := some (some 0) } = false ∧
    passesCompiledFilter exNoteA "/w"
      { modifiedAfter := some (some 0), modifiedBefore := some (some 0) } = true :=
  ⟨by decide, date_bounds_inclusive exNoteA "/w" 0 (by decide)⟩

/-- Folding the hits of one note: every hit counts towards the total, and
hits are materialized until `needed` are collected. -/
theorem searchStepLine_foldl (needed : Nat) (hits : List SearchHit) :
    ∀ (n : Nat) (c : List SearchHit), c.length ≤ needed →
      hits.foldl (searchStepLine needed) (n, c) =
        (n + hits.length, c ++ hits.take (needed - c.length)) := by
  induction hits with
  | nil => intro n c _; simp
  | cons hd tl ih =>
    intro n c h
    rw [List.foldl_cons]
    by_cases hlt : c.length < needed
    · have h2 : (c ++ [hd]).length ≤ needed := by simp; omega
      have : searchStepLine needed (n, c) hd = (n + 1, c ++ [hd]) := by
        simp [searchStepLine, hlt]
      rw [this, ih (n + 1) (c ++ [hd]) h2]
      have hk : needed - c.length = (needed - (c ++ [hd]).length) + 1 := by simp; omega
      rw [hk, List.take_succ_cons]
      simp [Nat.add_comm, Nat.add_assoc, Nat.add_left_comm]
    · have : searchStepLine needed (n, c) hd = (n + 1, c) := by
        simp [searchStepLine, hlt]
      rw [this, ih (n + 1) c h]
      have hk : needed - c.length = 0 := by omega
      simp [hk, Nat.add_comm, Nat.add_assoc, Nat.add_left_comm]

/-- Folding the search counters over the whole notes list yields the length
of the full match list and its first `needed` elements. -/
theorem search_fold_notes (q : String) (needed : Nat) (l : List (String × Note)) :
    ∀ (n : Nat) (c : List SearchHit), c.length ≤ needed →
      l.foldl (fun acc p => (noteHits q p.2).foldl (searchStepLine needed) acc) (n, c) =
        (n + (l.flatMap (fun p => noteHits q p.2)).length,
         c ++ (l.flatMap (fun p => noteHits q p.2)).take (needed - c.length)) := by
  induction l with
  | nil => intro n c _; simp
  | cons p tl ih =>
    intro n c h
    rw [List.foldl_cons, searchStepLine_foldl needed _ n c h]
    have h2 : (c ++ (noteHits q p.2).take (needed - c.length)).length ≤ needed := by
      simp [List.length_take]; omega
    rw [ih _ _ h2]
    have hflat : (p :: tl).flatMap (fun p => noteHits q p.2) =
        noteHits q p.2 ++ tl.flatMap (fun p => noteHits q p.2) := by
      simp
    rw [hflat]
    have hlen : needed - (c ++ (noteHits q p.2).take (needed - c.length)).length =
        needed - c.length - (noteHits q p.2).length := by
      simp [List.length_take]; omega
    rw [hlen, List.take_append_eq_append_take, List.append_assoc]
    simp [Nat.add_assoc]

/-- C6: for every non-negative limit and offset, `paginate` returns exactly
the slice `[offset, offset + limit)` of its input with `total` the full
length, and `search` returns exactly that slice of the full match list
(`searchAllHits`) with `total` counting every match, including those beyond
the page. -/
theorem pagination_invariant :
    (∀ (α : Type) (items : List α) (limit offset : Nat),
      (paginate items { limit := some limit, offset := some offset }).results =
          (items.drop offset).take limit ∧
      (paginate items { limit := some limit, offset := some offset }).results.length ≤ limit ∧
      (paginate items { limit := some limit, offset := some offset }).total = items.length) ∧
    (∀ (query : String) (state : GraphState) (limit offset : Nat),
      (search query state { limit := some limit, offset := some offset }).results =
          ((searchAllHits query state).drop offset).take limit ∧
      (search query state { limit := some limit, offset := some offset }).results.length ≤ limit ∧
      (search query state { limit := some limit, offset := some offset }).total =
          (searchAllHits query state).length) := by
  constructor
  · intro α items limit offset
    refine ⟨rfl, ?_, rfl⟩
    simp [paginate, List.length_take]
  · intro query state limit offset
    have hfold := search_fold_notes (⟨lowerChars query.data⟩ : String) (offset + limit)
      state.notes 0 [] (by simp)
    have hres : (search query state { limit := some limit, offset := some offset }).results =
        ((searchAllHits query state).drop offset).take limit := by
      show ((state.notes.foldl
          (fun acc p => (noteHits (⟨lowerChars query.data⟩ : String) p.2).foldl
            (searchStepLine (offset + limit)) acc) (0, [])).2.drop offset).take limit = _
      rw [hfold]
      show ((((searchAllHits query state).take (offset + limit - 0)).drop offset).take limit) = _
      rw [Nat.sub_zero, List.drop_take (offset + limit) offset _, Nat.add_sub_cancel_left,
        List.take_take]
      simp
    refine ⟨hres, ?_, ?_⟩
    · rw [hres]; simp [List.length_take]
    · show (state.notes.foldl
          (fun acc p => (noteHits (⟨lowerChars query.data⟩ : String) p.2).foldl
            (searchStepLine (offset + limit)) acc) (0, [])).1 = _
      rw [hfold]
      simp [searchAllHits]

/-- Equal normalized keys give equal fuzzy keys: `normalizeFuzzy` factors
through trim-and-lowercase, the pipeline `normalize` consists of. -/
theorem normalizeFuzzy_eq_of_normalize_eq (a b : String) (h : normalize a = normalize b) :
    normalizeFuzzy a = normalizeFuzzy b := by
  have h' : lowerChars (trimChars a.data) = lowerChars (trimChars b.data) := by
    have := congrArg String.data h
    simpa [normalize] using this
  simp [normalizeFuzzy, h']

/-- A successful `mget` exposes a matching entry of the map. -/
theorem mget_mem {α : Type} (m : JsMap α) (k : String) (v : α) (h : mget m k = some v) :
    ∃ p ∈ m, p.1 = k ∧ p.2 = v := by
  induction m with
  | nil => simp [mget] at h
  | cons q tl ih =>
    unfold mget at h
    by_cases hq : q.1 = k
    · rw [if_pos hq] at h
      injection h with h
      exact ⟨q, List.mem_cons_self q tl, hq, h⟩
    · rw [if_neg hq] at h
      obtain ⟨p, hp, hk, hv⟩ := ih h
      exact ⟨p, List.mem_cons.mpr (Or.inr hp), hk, hv⟩

/-- In a map with distinct keys, every entry is found by `mget` at its key. -/
theorem mget_of_mem_nodup {α : Type} (m : JsMap α) (hnd : (m.map Prod.fst).Nodup)
    (p : String × α) (hp : p ∈ m) : mget m p.1 = some p.2 := by
  induction m with
  | nil => cases hp
  | cons q tl ih =>
    simp only [List.map_cons, List.nodup_cons] at hnd
    rcases List.mem_cons.mp hp with rfl | hp'
    · simp [mget]
    · have hq : ¬(q.1 = p.1) := by
        intro he
        exact hnd.1 (by rw [he]; exact List.mem_map.mpr ⟨p, hp', rfl⟩)
      have hstep : mget (q :: tl) p.1 = mget tl p.1 := by
        simp [mget, hq]
      rw [hstep]
      exact ih hnd.2 hp'

/-- A resolved note is a value of the notes map. -/
theorem resolve_mem (state : GraphState) (name : String) (note : Note)
    (h : resolve name state = some note) : ∃ p ∈ state.notes, p.2 = note := by
  unfold resolve at h
  cases hm : mget state.notes (normalize name) with
  | some n =>
    rw [hm] at h
    obtain ⟨p, hp, _, hp2⟩ := mget_mem _ _ _ hm
    exact ⟨p, hp, by simp at h; rw [hp2, ← h]⟩
  | none =>
    rw [hm] at h
    unfold fuzzyResolve at h
    have hmem := List.mem_of_find?_eq_some h
    obtain ⟨p, hp, hp2⟩ := List.mem_map.mp hmem
    exact ⟨p, hp, hp2⟩

/-- C7: `resolve` is case-insensitive — two names with the same normalized
key (equal up to letter case and leading/trailing whitespace) resolve
identically — and idempotent on well-formed states: resolving the name of a
returned document returns that same document. -/
theorem resolve_case_insensitive_idempotent :
    (∀ (state : GraphState) (n1 n2 : String), normalize n1 = normalize n2 →
      resolve n1 state = resolve n2 state) ∧
    (∀ (state : GraphState), WellFormedNotes state.notes →
      ∀ (name : String) (note : Note), resolve name state = some note →
        resolve note.name state = some note) := by
  constructor
  · intro state n1 n2 h
    unfold resolve fuzzyResolve
    rw [h, normalizeFuzzy_eq_of_normalize_eq n1 n2 h]
  · intro state hwf name note h
    obtain ⟨p, hpmem, hp2⟩ := resolve_mem state name note h
    have hk : p.1 = normalize note.name := by rw [hwf.1 p hpmem, hp2]
    have hget : mget state.notes (normalize note.name) = some note := by
      rw [← hk, mget_of_mem_nodup _ hwf.2 p hpmem, hp2]
    unfold resolve
    rw [hget]

/-- Witness for `resolve_case_insensitive_idempotent` on the two-note state:
`"NOTE A"` and `"note a"` resolve identically, and re-resolving a resolved
note's own name returns it again. -/
theorem resolve_ci_idem_witness :
    normalize "NOTE A" = normalize "note a" ∧
    resolve "NOTE A" exStateAB = resolve "note a" exStateAB ∧
    WellFormedNotes exStateAB.notes ∧
    resolve "Note A" exStateAB = some (mkNote "Note A" ["Note B", "Ghost"]) ∧
    resolve (mkNote "Note A" ["Note B", "Ghost"]).name exStateAB =
      some (mkNote "Note A" ["Note B", "Ghost"]) :=
  ⟨by decide,
   resolve_case_insensitive_idempotent.1 exStateAB "NOTE A" "note a" (by decide),
   by constructor
      · decide
      · decide,
   by decide,
   resolve_case_insensitive_idempotent.2 exStateAB
     ⟨by decide, by decide⟩ "Note A" (mkNote "Note A" ["Note B", "Ghost"]) (by decide)⟩

/-- Unfolding of the per-character dash/underscore relation. -/
theorem duCharOk_iff (a b : Char) :
    duCharOk a b = true ↔ a = b ∨ (isDashChar a = true ∧ isDashChar b = true) := by
  simp [duCharOk]

/-- A dash/underscore character is one of the two. -/
theorem isDashChar_cases (a : Char) (h : isDashChar a = true) : a = '-' ∨ a = '_' := by
  simpa [isDashChar] using h

/-- Related characters agree on any predicate constant on dashes. -/
theorem duCharOk_pred_eq (p : Char → Bool) (hdash : p '-' = p '_')
    (a b : Char) (h : duCharOk a b = true) : p a = p b := by
  rcases (duCharOk_iff a b).mp h with rfl | ⟨ha, hb⟩
  · rfl
  · rcases isDashChar_cases a ha with rfl | rfl <;>
      rcases isDashChar_cases b hb with rfl | rfl <;> simp [hdash]

/-- `dropWhile` preserves the dash/underscore relation for predicates that
do not distinguish `-` from `_`. -/
theorem duVariantChars_dropWhile (p : Char → Bool) (hdash : p '-' = p '_') :
    ∀ l1 l2, duVariantChars l1 l2 = true →
      duVariantChars (l1.dropWhile p) (l2.dropWhile p) = true := by
  intro l1
  induction l1 with
  | nil => intro l2 h; cases l2 with
    | nil => exact h
    | cons b bs => simp [duVariantChars] at h
  | cons a as ih =>
    intro l2 h
    cases l2 with
    | nil => simp [duVariantChars] at h
    | cons b bs =>
      have h' : duCharOk a b = true ∧ duVariantChars as bs = true := by
        simpa [duVariantChars] using h
      have hpe := duCharOk_pred_eq p hdash a b h'.1
      cases hpa : p a with
      | true => simp only [List.dropWhile_cons, hpa, hpe ▸ hpa]; exact ih bs h'.2
      | false =>
        simp only [List.dropWhile_cons, hpa, hpe ▸ hpa]
        simpa [duVariantChars] using h

/-- The dash/underscore relation is preserved by appending one related
character on the right. -/
theorem duVariantChars_append_single (a b : Char) (hab : duCharOk a b = true) :
    ∀ l1 l2, duVariantChars l1 l2 = true →
      duVariantChars (l1 ++ [a]) (l2 ++ [b]) = true := by
  intro l1
  induction l1 with
  | nil => intro l2 h; cases l2 with
    | nil => simpa [duVariantChars, duCharOk] using hab
    | cons c cs => simp [duVariantChars] at h
  | cons c cs ih =>
    intro l2 h
    cases l2 with
    | nil => simp [duVariantChars] at h
    | cons d ds =>
      have h' : duCharOk c d = true ∧ duVariantChars cs ds = true := by
        simpa [duVariantChars] using h
      simpa [duVariantChars, h'.1] using ih ds h'.2

/-- The dash/underscore relation is preserved by `reverse`. -/
theorem duVariantChars_reverse :
    ∀ l1 l2, duVariantChars l1 l2 = true →
      duVariantChars l1.reverse l2.reverse = true := by
  intro l1
  induction l1 with
  | nil => intro l2 h; cases l2 with
    | nil => exact h
    | cons b bs => simp [duVariantChars] at h
  | cons a as ih =>
    intro l2 h
    cases l2 with
    | nil => simp [duVariantChars] at h
    | cons b bs =>
      have h' : duCharOk a b = true ∧ duVariantChars as bs = true := by
        simpa [duVariantChars] using h
      simpa using duVariantChars_append_single a b h'.1 as.reverse bs.reverse (ih bs h'.2)

/-- Lowercasing fixes dashes, so it preserves the relation. -/
theorem duVariantChars_lower :
    ∀ l1 l2, duVariantChars l1 l2 = true →
      duVariantChars (lowerChars l1) (lowerChars l2) = true := by
  intro l1
  induction l1 with
  | nil => intro l2 h; cases l2 with
    | nil => exact h
    | cons b bs => simp [duVariantChars] at h
  | cons a as ih =>
    intro l2 h
    cases l2 with
    | nil => simp [duVariantChars] at h
    | cons b bs =>
      have h' : duCharOk a b = true ∧ duVariantChars as bs = true := by
        simpa [duVariantChars] using h
      have hhead : duCharOk (jsCharLower a) (jsCharLower b) = true := by
        rcases (duCharOk_iff a b).mp h'.1 with rfl | ⟨ha, hb⟩
        · simp [duCharOk]
        · have ha' : jsCharLower a = a := by
            rcases isDashChar_cases a ha with rfl | rfl <;> decide
          have hb' : jsCharLower b = b := by
            rcases isDashChar_cases b hb with rfl | rfl <;> decide
          rw [ha', hb']
          exact h'.1
      simpa [lowerChars, duVariantChars, hhead] using ih bs h'.2

/-- Stripping dashes and underscores collapses related lists to equality. -/
theorem duVariantChars_filter_dash :
    ∀ l1 l2, duVariantChars l1 l2 = true →
      l1.filter (fun c => !isDashChar c) = l2.filter (fun c => !isDashChar c) := by
  intro l1
  induction l1 with
  | nil => intro l2 h; cases l2 with
    | nil => rfl
    | cons b bs => simp [duVariantChars] at h
  | cons a as ih =>
    intro l2 h
    cases l2 with
    | nil => simp [duVariantChars] at h
    | cons b bs =>
      have h' : duCharOk a b = true ∧ duVariantChars as bs = true := by
        simpa [duVariantChars] using h
      rcases (duCharOk_iff a b).mp h'.1 with rfl | ⟨ha, hb⟩
      · simp only [List.filter_cons]
        rw [ih bs h'.2]
      · simp only [List.filter_cons, ha, hb]
        exact ih bs h'.2

/-- C8: a query that differs from a stored document's name only by
interchanging `-` and `_` has the same fuzzy key (dashes and underscores are
both stripped; the remaining equal characters decompose identically under
NFD, covering the diacritics clause), and when the exact stage misses and
that document is the unique fuzzy-key match, `resolve` returns it. -/
theorem fuzzy_dash_underscore_resolution :
    (∀ (a b : String), duVariant a b = true → normalizeFuzzy a = normalizeFuzzy b) ∧
    (∀ (state : GraphState) (q : String) (doc : Note),
      (∃ p ∈ state.notes, p.2 = doc) →
      normalizeFuzzy q = normalizeFuzzy doc.name →
      mget state.notes (normalize q) = none →
      (∀ p ∈ state.notes, normalizeFuzzy p.2.name = normalizeFuzzy q → p.2 = doc) →
      resolve q state = some doc) := by
  constructor
  · intro a b h
    have h1 : duVariantChars (trimChars a.data) (trimChars b.data) = true := by
      unfold trimChars
      exact duVariantChars_reverse _ _
        (duVariantChars_dropWhile isJsSpace (by decide) _ _
          (duVariantChars_reverse _ _
            (duVariantChars_dropWhile isJsSpace (by decide) _ _ h)))
    have h2 := duVariantChars_lower _ _ h1
    have h3 := duVariantChars_filter_dash _ _ h2
    simp [normalizeFuzzy, h3]
  · intro state q doc hmem hkey hexact huniq
    unfold resolve
    rw [hexact]
    unfold fuzzyResolve
    cases hf : (state.notes.map (fun p => p.2)).find?
        (fun note => normalizeFuzzy note.name == normalizeFuzzy q) with
    | none =>
      obtain ⟨p, hp, hp2⟩ := hmem
      have habs := List.find?_eq_none.mp hf doc (List.mem_map.mpr ⟨p, hp, hp2⟩)
      simp [hkey.symm] at habs
    | some x =>
      have hpred : normalizeFuzzy x.name = normalizeFuzzy q := by
        simpa using List.find?_some hf
      obtain ⟨px, hpx, hpx2⟩ := List.mem_map.mp (List.mem_of_find?_eq_some hf)
      have := huniq px hpx (by rw [hpx2]; exact hpred)
      simp only [Option.map_some]
      rw [show x = doc from hpx2 ▸ this]

/-- Witness for `fuzzy_dash_underscore_resolution`:
`resolve("Note-With-Dashes")` returns the document named
`"Note_With_Dashes"`. -/
theorem fuzzy_du_witness :
    duVariant "Note-With-Dashes" "Note_With_Dashes" = true ∧
    normalizeFuzzy "Note-With-Dashes" = normalizeFuzzy "Note_With_Dashes" ∧
    resolve "Note-With-Dashes" exStateDU = some (mkNote "Note_With_Dashes" []) :=
  ⟨by decide,
   fuzzy_dash_underscore_resolution.1 "Note-With-Dashes" "Note_With_Dashes" (by decide),
   fuzzy_dash_underscore_resolution.2 exStateDU "Note-With-Dashes"
     (mkNote "Note_With_Dashes" []) ⟨("note_with_dashes", mkNote "Note_With_Dashes" []),
       by decide, by decide⟩ (by decide) (by decide) (by decide)⟩

/-- `mget` after the overwrite-in-place branch of `mset`. -/
theorem mget_map_set {α : Type} (m : JsMap α) (k : String) (v : α) (j : String) :
    mget (m.map (fun p => if p.1 = k then (k, v) else p)) j =
      if j = k then (mget m k).map (fun _ => v) else mget m j := by
  induction m with
  | nil => by_cases hj : j = k <;> simp [mget, hj]
  | cons q tl ih =>
    simp only [List.map_cons]
    by_cases hq : q.1 = k
    · by_cases hj : j = k
      · subst hj
        simp [mget, hq]
      · have h1 : ¬(k = j) := fun he => hj he.symm
        have h2 : ¬(q.1 = j) := by rw [hq]; exact h1
        simp [mget, hq, h1, h2, ih, hj]
    · by_cases hj : j = k
      · subst hj
        simp [mget, hq, ih]
      · by_cases hqj : q.1 = j
        · simp [mget, hq, hqj, hj]
        · simp [mget, hq, hqj, hj, ih]

/-- `mget` over an appended map. -/
theorem mget_append {α : Type} (m1 m2 : JsMap α) (j : String) :
    mget (m1 ++ m2) j = (mget m1 j).or (mget m2 j) := by
  induction m1 with
  | nil => simp [mget]
  | cons q tl ih =>
    by_cases hq : q.1 = j <;> simp [mget, hq, ih]

/-- The single fact `mset` provides: lookup at the written key sees the new
value, lookup elsewhere is unchanged. -/
theorem mget_mset {α : Type} (m : JsMap α) (k : String) (v : α) (j : String) :
    mget (mset m k v) j = if j = k then some v else mget m j := by
  unfold mset mhas
  cases hk : mget m k with
  | some w =>
    rw [if_pos (by simp [hk])]
    rw [mget_map_set m k v j, hk]
    by_cases hj : j = k <;> simp [hj]
  | none =>
    rw [if_neg (by simp [hk])]
    rw [mget_append]
    by_cases hj : j = k
    · subst hj
      rw [hk]
      simp [mget]
    · have hkj : ¬(k = j) := fun he => hj he.symm
      simp only [mget, hkj, if_neg, if_false]
      cases mget m j <;> simp [hj]

/-- Membership in `saddUnique`. -/
theorem mem_saddUnique (s : List String) (v x : String) :
    x ∈ saddUnique s v ↔ x ∈ s ∨ x = v := by
  unfold saddUnique
  by_cases hv : v ∈ s
  · simp only [if_pos hv]
    constructor
    · exact Or.inl
    · rintro (h | rfl)
      · exact h
      · exact hv
  · simp [if_neg hv]

/-- `saddUnique` never empties a set. -/
theorem saddUnique_ne_nil (s : List String) (v : String) : saddUnique s v ≠ [] := by
  unfold saddUnique
  by_cases hv : v ∈ s
  · simp only [if_pos hv]
    intro he
    rw [he] at hv
    cases hv
  · simp [if_neg hv]

/-- `mget` after `addToSetMap`. -/
theorem mget_addToSetMap (m : JsMap (List String)) (k v : String) (j : String) :
    mget (addToSetMap m k v) j =
      if j = k then
        some (match mget m k with | some s => saddUnique s v | none => [v])
      else mget m j := by
  unfold addToSetMap
  cases hk : mget m k with
  | some s => rw [mget_mset]
  | none =>
    rw [mget_append]
    by_cases hj : j = k
    · subst hj
      rw [hk]
      simp [mget]
    · have hkj : ¬(k = j) := fun he => hj he.symm
      simp only [mget, hkj, if_neg, if_false]
      cases mget m j <;> simp [hj]

/-- Membership in the edge sets of `addToSetMap`. -/
theorem mem_adjSet_addToSetMap (m : JsMap (List String)) (k v : String) (j x : String) :
    x ∈ adjSet (addToSetMap m k v) j ↔ x ∈ adjSet m j ∨ (j = k ∧ x = v) := by
  unfold adjSet
  rw [mget_addToSetMap]
  by_cases hj : j = k
  · subst hj
    cases hk : mget m j with
    | some s => simp [mem_saddUnique]
    | none => simp
  · simp [hj]

/-- All stored edge sets are non-empty. -/
def SetsNE (m : JsMap (List String)) : Prop :=
  ∀ j s, mget m j = some s → s ≠ []

/-- `addToSetMap` preserves non-emptiness of the stored sets. -/
theorem setsNE_addToSetMap (m : JsMap (List String)) (k v : String) (h : SetsNE m) :
    SetsNE (addToSetMap m k v) := by
  intro j s hs
  rw [mget_addToSetMap] at hs
  by_cases hj : j = k
  · rw [if_pos hj] at hs
    cases hk : mget m k with
    | some s0 =>
      rw [hk] at hs
      injection hs with hs
      rw [← hs]
      exact saddUnique_ne_nil s0 v
    | none =>
      rw [hk] at hs
      injection hs with hs
      rw [← hs]
      simp
  · rw [if_neg hj] at hs
    exact h j s hs

/-- A key is present in a map with non-empty sets iff its edge set has an
element. -/
theorem isSome_iff_adjSet_nonempty (m : JsMap (List String)) (hne : SetsNE m) (j : String) :
    (mget m j).isSome ↔ ∃ x, x ∈ adjSet m j := by
  unfold adjSet
  cases hk : mget m j with
  | some s =>
    simp only [Option.isSome_some, Option.getD_some, true_iff]
    cases s with
    | nil => exact absurd rfl (hne j [] hk)
    | cons a tl => exact ⟨a, List.mem_cons_self a tl⟩
  | none => simp

/-- Backward-map membership across the inner target fold of
`buildAdjacency`: exactly the old members plus `src` under every target. -/
theorem adjFold_backward (notes : JsMap Note) (src : String) :
    ∀ (targets : List String) (bm : JsMap (List String) × JsMap (List String))
      (j x : String),
      x ∈ adjSet (targets.foldl (adjTargetStep notes src) bm).1 j ↔
        x ∈ adjSet bm.1 j ∨ (x = src ∧ j ∈ targets) := by
  intro targets
  induction targets with
  | nil => intro bm j x; simp
  | cons t ts ih =>
    intro bm j x
    rw [List.foldl_cons, ih]
    show x ∈ adjSet (addToSetMap bm.1 t src) j ∨ _ ↔ _
    rw [mem_adjSet_addToSetMap]
    simp only [List.mem_cons]
    constructor
    · rintro ((h | ⟨rfl, rfl⟩) | ⟨rfl, hj⟩)
      · exact Or.inl h
      · exact Or.inr ⟨rfl, Or.inl rfl⟩
      · exact Or.inr ⟨rfl, Or.inr hj⟩
    · rintro (h | ⟨rfl, rfl | hj⟩)
      · exact Or.inl (Or.inl h)
      · exact Or.inl (Or.inr ⟨rfl, rfl⟩)
      · exact Or.inr ⟨rfl, hj⟩

/-- Missing-map membership across the inner target fold of `buildAdjacency`:
`src` is added under exactly the targets that are not note keys. -/
theorem adjFold_missing (notes : JsMap Note) (src : String) :
    ∀ (targets : List String) (bm : JsMap (List String) × JsMap (List String))
      (j x : String),
      x ∈ adjSet (targets.foldl (adjTargetStep notes src) bm).2 j ↔
        x ∈ adjSet bm.2 j ∨ (x = src ∧ j ∈ targets ∧ mhas notes j = false) := by
  intro targets
  induction targets with
  | nil => intro bm j x; simp
  | cons t ts ih =>
    intro bm j x
    rw [List.foldl_cons, ih]
    show x ∈ adjSet (if mhas notes t then bm.2 else addToSetMap bm.2 t src) j ∨ _ ↔ _
    cases hnt : mhas notes t with
    | true =>
      simp only [if_pos rfl, List.mem_cons]
      constructor
      · rintro (h | ⟨rfl, hj, hmj⟩)
        · exact Or.inl h
        · exact Or.inr ⟨rfl, Or.inr hj, hmj⟩
      · rintro (h | ⟨rfl, rfl | hj, hmj⟩)
        · exact Or.inl h
        · rw [hnt] at hmj; cases hmj
        · exact Or.inr ⟨rfl, hj, hmj⟩
    | false =>
      simp only [Bool.false_eq_true, if_false, mem_adjSet_addToSetMap, List.mem_cons]
      constructor
      · rintro ((h | ⟨rfl, rfl⟩) | ⟨rfl, hj, hmj⟩)
        · exact Or.inl h
        · exact Or.inr ⟨rfl, Or.inl rfl, hnt⟩
        · exact Or.inr ⟨rfl, Or.inr hj, hmj⟩
      · rintro (h | ⟨rfl, rfl | hj, hmj⟩)
        · exact Or.inl (Or.inl h)
        · exact Or.inl (Or.inr ⟨rfl, rfl⟩)
        · exact Or.inr ⟨rfl, hj, hmj⟩

/-- The inner target fold keeps all stored sets non-empty. -/
theorem setsNE_adjFold (notes : JsMap Note) (src : String) :
    ∀ (targets : List String) (bm : JsMap (List String) × JsMap (List String)),
      SetsNE bm.1 → SetsNE bm.2 →
      SetsNE (targets.foldl (adjTargetStep notes src) bm).1 ∧
        SetsNE (targets.foldl (adjTargetStep notes src) bm).2 := by
  intro targets
  induction targets with
  | nil => intro bm h1 h2; exact ⟨h1, h2⟩
  | cons t ts ih =>
    intro bm h1 h2
    rw [List.foldl_cons]
    refine ih _ (setsNE_addToSetMap _ _ _ h1) ?_
    show SetsNE (if mhas notes t then bm.2 else addToSetMap bm.2 t src)
    cases mhas notes t with
    | true => simpa using h2
    | false => simpa using setsNE_addToSetMap _ t src h2

/-- The forward component of the outer fold is an independent `mset` fold. -/
theorem buildFold_forward_proj (notes : JsMap Note) :
    ∀ (l : List (String × Note)) (acc : Adjacency),
      (l.foldl (buildAdjacencyStep notes) acc).forward =
        l.foldl (fun f e => mset f e.1 (targetsOf e.2)) acc.forward := by
  intro l
  induction l with
  | nil => intro acc; rfl
  | cons e es ih =>
    intro acc
    rw [List.foldl_cons, List.foldl_cons, ih]
    rfl

/-- The backward/missing components of the outer fold form an independent
paired fold of the inner target folds. -/
theorem buildFold_bm_proj (notes : JsMap Note) :
    ∀ (l : List (String × Note)) (acc : Adjacency),
      ((l.foldl (buildAdjacencyStep notes) acc).backward,
        (l.foldl (buildAdjacencyStep notes) acc).missing) =
        l.foldl (fun bm e => (targetsOf e.2).foldl (adjTargetStep notes e.1) bm)
          (acc.backward, acc.missing) := by
  intro l
  induction l with
  | nil => intro acc; rfl
  | cons e es ih =>
    intro acc
    rw [List.foldl_cons, List.foldl_cons, ih]
    rfl

/-- A key never written by the forward fold keeps its old binding. -/
theorem msetFold_forward_notmem :
    ∀ (l : List (String × Note)) (f : JsMap (List String)) (s : String),
      s ∉ l.map Prod.fst →
      mget (l.foldl (fun f e => mset f e.1 (targetsOf e.2)) f) s = mget f s := by
  intro l
  induction l with
  | nil => intro f s _; rfl
  | cons e es ih =>
    intro f s hs
    simp only [List.map_cons, List.mem_cons, not_or] at hs
    rw [List.foldl_cons, ih _ _ hs.2, mget_mset, if_neg hs.1]

/-- With distinct source keys, the forward fold stores exactly each note's
target set under its key. -/
theorem msetFold_forward_mem :
    ∀ (l : List (String × Note)) (f : JsMap (List String)),
      (l.map Prod.fst).Nodup → ∀ (s : String) (note : Note), (s, note) ∈ l →
      mget (l.foldl (fun f e => mset f e.1 (targetsOf e.2)) f) s =
        some (targetsOf note) := by
  intro l
  induction l with
  | nil => intro f _ s note h; cases h
  | cons e es ih =>
    intro f hnd s note h
    simp only [List.map_cons, List.nodup_cons] at hnd
    rw [List.foldl_cons]
    rcases List.mem_cons.mp h with rfl | h'
    · rw [msetFold_forward_notmem es _ s hnd.1, mget_mset, if_pos rfl]
    · exact ih _ hnd.2 s note h'

/-- Backward membership over the whole outer fold. -/
theorem bmFold_backward_mem (notes : JsMap Note) :
    ∀ (l : List (String × Note)) (bm : JsMap (List String) × JsMap (List String))
      (j x : String),
      x ∈ adjSet (l.foldl
          (fun bm e => (targetsOf e.2).foldl (adjTargetStep notes e.1) bm) bm).1 j ↔
        x ∈ adjSet bm.1 j ∨ ∃ p ∈ l, p.1 = x ∧ j ∈ targetsOf p.2 := by
  intro l
  induction l with
  | nil => intro bm j x; simp
  | cons e es ih =>
    intro bm j x
    rw [List.foldl_cons, ih, adjFold_backward]
    simp only [List.mem_cons]
    constructor
    · rintro ((h | ⟨rfl, hj⟩) | ⟨p, hp, hx, hj⟩)
      · exact Or.inl h
      · exact Or.inr ⟨e, Or.inl rfl, rfl, hj⟩
      · exact Or.inr ⟨p, Or.inr hp, hx, hj⟩
    · rintro (h | ⟨p, rfl | hp, hx, hj⟩)
      · exact Or.inl (Or.inl h)
      · exact Or.inl (Or.inr ⟨hx.symm, hj⟩)
      · exact Or.inr ⟨p, hp, hx, hj⟩

/-- Missing membership over the whole outer fold. -/
theorem bmFold_missing_mem (notes : JsMap Note) :
    ∀ (l : List (String × Note)) (bm : JsMap (List String) × JsMap (List String))
      (j x : String),
      x ∈ adjSet (l.foldl
          (fun bm e => (targetsOf e.2).foldl (adjTargetStep notes e.1) bm) bm).2 j ↔
        x ∈ adjSet bm.2 j ∨
          ∃ p ∈ l, p.1 = x ∧ j ∈ targetsOf p.2 ∧ mhas notes j = false := by
  intro l
  induction l with
  | nil => intro bm j x; simp
  | cons e es ih =>
    intro bm j x
    rw [List.foldl_cons, ih, adjFold_missing]
    simp only [List.mem_cons]
    constructor
    · rintro ((h | ⟨rfl, hj, hmj⟩) | ⟨p, hp, hx, hj, hmj⟩)
      · exact Or.inl h
      · exact Or.inr ⟨e, Or.inl rfl, rfl, hj, hmj⟩
      · exact Or.inr ⟨p, Or.inr hp, hx, hj, hmj⟩
    · rintro (h | ⟨p, rfl | hp, hx, hj, hmj⟩)
      · exact Or.inl (Or.inl h)
      · exact Or.inl (Or.inr ⟨hx.symm, hj, hmj⟩)
      · exact Or.inr ⟨p, hp, hx, hj, hmj⟩

/-- All sets of the final backward and missing maps are non-empty. -/
theorem setsNE_bmFold (notes : JsMap Note) :
    ∀ (l : List (String × Note)) (bm : JsMap (List String) × JsMap (List String)),
      SetsNE bm.1 → SetsNE bm.2 →
      SetsNE (l.foldl
          (fun bm e => (targetsOf e.2).foldl (adjTargetStep notes e.1) bm) bm).1 ∧
        SetsNE (l.foldl
          (fun bm e => (targetsOf e.2).foldl (adjTargetStep notes e.1) bm) bm).2 := by
  intro l
  induction l with
  | nil => intro bm h1 h2; exact ⟨h1, h2⟩
  | cons e es ih =>
    intro bm h1 h2
    rw [List.foldl_cons]
    obtain ⟨h1', h2'⟩ := setsNE_adjFold notes e.1 (targetsOf e.2) bm h1 h2
    exact ih _ h1' h2'

/-- With distinct keys, two entries at the same key coincide. -/
theorem keys_nodup_unique {α : Type} (l : List (String × α))
    (hnd : (l.map Prod.fst).Nodup) {s : String} {a b : α}
    (ha : (s, a) ∈ l) (hb : (s, b) ∈ l) : a = b := by
  induction l with
  | nil => cases ha
  | cons q tl ih =>
    simp only [List.map_cons, List.nodup_cons] at hnd
    rcases List.mem_cons.mp ha with rfl | ha'
    · rcases List.mem_cons.mp hb with h2 | hb'
      · injection h2 with _ h
        exact h.symm
      · exact absurd (List.mem_map.mpr ⟨(s, b), hb', rfl⟩) hnd.1
    · rcases List.mem_cons.mp hb with rfl | hb'
      · exact absurd (List.mem_map.mpr ⟨(s, a), ha', rfl⟩) hnd.1
      · exact ih hnd.2 ha' hb'

/-- The missing map is keyed exactly as `bmFold_missing_mem` describes and
its sets are non-empty, so key presence matches member existence. -/
theorem buildAdjacency_missing_mem (notes : JsMap Note) (t x : String) :
    x ∈ adjSet (buildAdjacency notes).missing t ↔
      ∃ p ∈ notes, p.1 = x ∧ t ∈ targetsOf p.2 ∧ mhas notes t = false := by
  have hproj := buildFold_bm_proj notes notes ⟨[], [], []⟩
  have hm : (buildAdjacency notes).missing =
      (notes.foldl (fun bm e => (targetsOf e.2).foldl (adjTargetStep notes e.1) bm)
        (([] : JsMap (List String)), ([] : JsMap (List String)))).2 :=
    congrArg Prod.snd hproj
  rw [show (buildAdjacency notes).missing = _ from hm, bmFold_missing_mem]
  simp [adjSet, mget]

/-- The backward map of `buildAdjacency`, characterized. -/
theorem buildAdjacency_backward_mem (notes : JsMap Note) (t x : String) :
    x ∈ adjSet (buildAdjacency notes).backward t ↔
      ∃ p ∈ notes, p.1 = x ∧ t ∈ targetsOf p.2 := by
  have hproj := buildFold_bm_proj notes notes ⟨[], [], []⟩
  have hb : (buildAdjacency notes).backward =
      (notes.foldl (fun bm e => (targetsOf e.2).foldl (adjTargetStep notes e.1) bm)
        (([] : JsMap (List String)), ([] : JsMap (List String)))).1 :=
    congrArg Prod.fst hproj
  rw [show (buildAdjacency notes).backward = _ from hb, bmFold_backward_mem]
  simp [adjSet, mget]

/-- The forward map of `buildAdjacency`, characterized (distinct keys). -/
theorem buildAdjacency_forward_mem (notes : JsMap Note)
    (hnd : (notes.map Prod.fst).Nodup) (s t : String) :
    t ∈ adjSet (buildAdjacency notes).forward s ↔
      ∃ p ∈ notes, p.1 = s ∧ t ∈ targetsOf p.2 := by
  unfold buildAdjacency
  rw [buildFold_forward_proj]
  by_cases hs : ∃ note, (s, note) ∈ notes
  · obtain ⟨note, hmem⟩ := hs
    unfold adjSet
    rw [msetFold_forward_mem notes _ hnd s note hmem]
    simp only [Option.getD_some]
    constructor
    · intro h
      exact ⟨(s, note), hmem, rfl, h⟩
    · rintro ⟨p, hp, hps, hpt⟩
      have hb : (s, p.2) ∈ notes := by
        rw [← hps]; exact hp
      rw [keys_nodup_unique notes hnd hmem hb]
      exact hpt
  · have hnot : s ∉ notes.map Prod.fst := by
      intro hmem
      obtain ⟨p, hp, hps⟩ := List.mem_map.mp hmem
      exact hs ⟨p.2, by rw [← hps]; exact hp⟩
    unfold adjSet
    rw [msetFold_forward_notmem notes _ s hnot]
    simp only [mget, Option.getD_none, List.not_mem_nil, false_iff, not_exists]
    rintro p ⟨hp, hps, _⟩
    exact hs ⟨p.2, by rw [← hps]; exact hp⟩

/-- C4: in every index the builder produces (over a notes map with distinct
keys), the backward map is exactly the inverse of the forward map. -/
theorem forward_backward_inverse (notes : JsMap Note)
    (hnd : (notes.map Prod.fst).Nodup) (s t : String) :
    t ∈ adjSet (buildAdjacency notes).forward s ↔
      s ∈ adjSet (buildAdjacency notes).backward t := by
  rw [buildAdjacency_forward_mem notes hnd s t, buildAdjacency_backward_mem notes t s]

/-- Witness for `forward_backward_inverse` on the two-note fixture. -/
theorem forward_backward_inverse_witness :
    (exNotesAB.map Prod.fst).Nodup ∧
    ("note b" ∈ adjSet (buildAdjacency exNotesAB).forward "note a" ↔
      "note a" ∈ adjSet (buildAdjacency exNotesAB).backward "note b") :=
  ⟨by decide, forward_backward_inverse exNotesAB (by decide) "note a" "note b"⟩

/-- `mhas` is false exactly when `mget` is `none`. -/
theorem mhas_false_iff {α : Type} (m : JsMap α) (k : String) :
    mhas m k = false ↔ mget m k = none := by
  unfold mhas
  cases mget m k <;> simp

/-- The sets of the built missing map are non-empty. -/
theorem buildAdjacency_missing_setsNE (notes : JsMap Note) :
    SetsNE (buildAdjacency notes).missing := by
  have hproj := buildFold_bm_proj notes notes ⟨[], [], []⟩
  have hm : (buildAdjacency notes).missing =
      (notes.foldl (fun bm e => (targetsOf e.2).foldl (adjTargetStep notes e.1) bm)
        (([] : JsMap (List String)), ([] : JsMap (List String)))).2 :=
    congrArg Prod.snd hproj
  rw [show (buildAdjacency notes).missing = _ from hm]
  exact (setsNE_bmFold notes notes ([], [])
    (fun j s h => by simp [mget] at h) (fun j s h => by simp [mget] at h)).2

/-- C5: a target key has an entry in the missing (broken) map iff it occurs
in some forward set and is not a note key; hence the missing keys and the
note keys are disjoint, and a key occurring in any forward set is in exactly
one of the two maps. -/
theorem broken_iff_missing_target (notes : JsMap Note)
    (hnd : (notes.map Prod.fst).Nodup) (t : String) :
    ((mget (buildAdjacency notes).missing t).isSome ↔
      (∃ s, t ∈ adjSet (buildAdjacency notes).forward s) ∧ mget notes t = none) ∧
    (¬((mget (buildAdjacency notes).missing t).isSome ∧ (mget notes t).isSome)) ∧
    ((∃ s, t ∈ adjSet (buildAdjacency notes).forward s) →
      ((mget notes t).isSome ∧ ¬(mget (buildAdjacency notes).missing t).isSome) ∨
      ((mget (buildAdjacency notes).missing t).isSome ∧ mget notes t = none)) := by
  have hkey : (mget (buildAdjacency notes).missing t).isSome ↔
      (∃ s, t ∈ adjSet (buildAdjacency notes).forward s) ∧ mget notes t = none := by
    rw [isSome_iff_adjSet_nonempty _ (buildAdjacency_missing_setsNE notes) t]
    constructor
    · rintro ⟨x, hx⟩
      obtain ⟨p, hp, hpx, hpt, hmf⟩ := (buildAdjacency_missing_mem notes t x).mp hx
      refine ⟨⟨p.1, ?_⟩, (mhas_false_iff notes t).mp hmf⟩
      rw [buildAdjacency_forward_mem notes hnd p.1 t]
      exact ⟨p, hp, rfl, hpt⟩
    · rintro ⟨⟨s, hs⟩, hnone⟩
      obtain ⟨p, hp, hps, hpt⟩ := (buildAdjacency_forward_mem notes hnd s t).mp hs
      refine ⟨p.1, ?_⟩
      rw [buildAdjacency_missing_mem notes t p.1]
      exact ⟨p, hp, rfl, hpt, (mhas_false_iff notes t).mpr hnone⟩
  refine ⟨hkey, ?_, ?_⟩
  · rintro ⟨hmiss, hsome⟩
    rw [(hkey.mp hmiss).2] at hsome
    cases hsome
  · intro hfwd
    cases hnt : mget notes t with
    | some note =>
      refine Or.inl ⟨rfl, ?_⟩
      intro hmiss
      rw [(hkey.mp hmiss).2] at hnt
      cases hnt
    | none => exact Or.inr ⟨hkey.mpr ⟨hfwd, hnt⟩, rfl⟩

/-- Witness for `broken_iff_missing_target` at the broken target `"ghost"`. -/
theorem broken_iff_missing_target_witness :
    (exNotesAB.map Prod.fst).Nodup ∧
    ((mget (buildAdjacency exNotesAB).missing "ghost").isSome ↔
      (∃ s, "ghost" ∈ adjSet (buildAdjacency exNotesAB).forward s) ∧
        mget exNotesAB "ghost" = none) :=
  ⟨by decide, (broken_iff_missing_target exNotesAB (by decide) "ghost").1⟩

/-- Characterization of the target-expansion fold: enqueued entries are
note targets at the next depth, missing additions are non-note targets, and
at most one entry is enqueued per target. -/
theorem expandStep_fold_char (state : GraphState) (depth : Nat) :
    ∀ (targets : List String) (acc : List (String × Nat) × List String),
      (∀ p ∈ (targets.foldl (expandStep state depth) acc).1,
        p ∈ acc.1 ∨ (p.2 = depth + 1 ∧ p.1 ∈ targets ∧ mhas state.notes p.1 = true)) ∧
      (∀ x ∈ (targets.foldl (expandStep state depth) acc).2,
        x ∈ acc.2 ∨ (x ∈ targets ∧ mhas state.notes x = false)) ∧
      (targets.foldl (expandStep state depth) acc).1.length ≤
        acc.1.length + targets.length := by
  intro targets
  induction targets with
  | nil => intro acc; exact ⟨fun p hp => Or.inl hp, fun x hx => Or.inl hx, Nat.le_add_right _ _⟩
  | cons t ts ih =>
    intro acc
    rw [List.foldl_cons]
    obtain ⟨ih1, ih2, ih3⟩ := ih (expandStep state depth acc t)
    refine ⟨?_, ?_, ?_⟩
    · intro p hp
      rcases ih1 p hp with hin | ⟨hd, ht, hh⟩
      · unfold expandStep at hin
        cases hmt : mhas state.notes t with
        | true =>
          rw [hmt] at hin
          simp only [if_true] at hin
          rcases List.mem_append.mp hin with h | h
          · exact Or.inl h
          · have := List.mem_singleton.mp h
            exact Or.inr ⟨by rw [this], by rw [this]; exact List.mem_cons_self t ts,
              by rw [this]; exact hmt⟩
        | false =>
          rw [hmt] at hin
          simp only [Bool.false_eq_true, if_false] at hin
          exact Or.inl hin
      · exact Or.inr ⟨hd, List.mem_cons.mpr (Or.inr ht), hh⟩
    · intro x hx
      rcases ih2 x hx with hin | ⟨ht, hh⟩
      · unfold expandStep at hin
        cases hmt : mhas state.notes t with
        | true =>
          rw [hmt] at hin
          simp only [if_true] at hin
          exact Or.inl hin
        | false =>
          rw [hmt] at hin
          simp only [Bool.false_eq_true, if_false] at hin
          rcases (mem_saddUnique _ _ _).mp hin with h | h
          · exact Or.inl h
          · exact Or.inr ⟨by rw [h]; exact List.mem_cons_self t ts, by rw [h]; exact hmt⟩
      · exact Or.inr ⟨List.mem_cons.mpr (Or.inr ht), hh⟩
    · refine le_trans ih3 ?_
      unfold expandStep
      cases mhas state.notes t <;> (simp; try omega)

/-- The visited map only grows across the BFS loop. -/
theorem bfsLoop_mono (state : GraphState) (maxD : Nat) :
    ∀ (fuel : Nat) (queue visited : List (String × Nat)) (mf : List String)
      (v : List (String × Nat)) (mm : List String),
      bfsLoop state maxD fuel queue visited mf = some (v, mm) →
      ∀ p ∈ visited, p ∈ v := by
  intro fuel
  induction fuel with
  | zero =>
    intro queue visited mf v mm h
    cases queue with
    | nil =>
      injection h with h
      injection h with h1 h2
      rw [← h1]
      exact fun p hp => hp
    | cons q rest => exact absurd h (by simp [bfsLoop])
  | succ n ih =>
    intro queue visited mf v mm h
    cases queue with
    | nil =>
      injection h with h
      injection h with h1 h2
      rw [← h1]
      exact fun p hp => hp
    | cons q rest =>
      obtain ⟨k, d⟩ := q
      rw [show bfsLoop state maxD (n + 1) ((k, d) :: rest) visited mf =
          (if mhas visited k then bfsLoop state maxD n rest visited mf
          else if d < maxD then
            match mget state.forward k with
            | some targets =>
              bfsLoop state maxD n (rest ++ (expandTargets state d targets mf).1)
                (visited ++ [(k, d)]) (expandTargets state d targets mf).2
            | none => bfsLoop state maxD n rest (visited ++ [(k, d)]) mf
          else bfsLoop state maxD n rest (visited ++ [(k, d)]) mf) from rfl] at h
      by_cases hvk : mhas visited k = true
      · rw [if_pos hvk] at h
        exact ih rest visited mf v mm h
      · rw [if_neg hvk] at h
        have hsub : ∀ p ∈ visited, p ∈ visited ++ [(k, d)] :=
          fun p hp => List.mem_append.mpr (Or.inl hp)
        by_cases hd : d < maxD
        · rw [if_pos hd] at h
          cases hfw : mget state.forward k with
          | some targets =>
            rw [hfw] at h
            exact fun p hp => ih _ _ _ v mm h p (hsub p hp)
          | none =>
            rw [hfw] at h
            exact fun p hp => ih _ _ _ v mm h p (hsub p hp)
        · rw [if_neg hd] at h
          exact fun p hp => ih _ _ _ v mm h p (hsub p hp)

/-- The BFS loop invariant: depths stay bounded by `maxDepth` (enqueueing
happens only below the bound, one depth deeper), the visited map only grows,
and every missing entry was produced by expanding a visited node of depth
strictly below `maxDepth` whose forward set contains it. -/
theorem bfsLoop_invariant (state : GraphState) (maxD : Nat) :
    ∀ (fuel : Nat) (queue visited : List (String × Nat)) (mf : List String)
      (v : List (String × Nat)) (mm : List String),
      bfsLoop state maxD fuel queue visited mf = some (v, mm) →
      (∀ p ∈ queue, p.2 ≤ maxD) →
      (∀ p ∈ visited, p.2 ≤ maxD) →
      (∀ x ∈ mf, mget state.notes x = none ∧
        ∃ kd ∈ visited, kd.2 < maxD ∧ x ∈ adjSet state.forward kd.1) →
      (∀ p ∈ v, p.2 ≤ maxD) ∧
      (∀ x ∈ mm, mget state.notes x = none ∧
        ∃ kd ∈ v, kd.2 < maxD ∧ x ∈ adjSet state.forward kd.1) := by
  intro fuel
  induction fuel with
  | zero =>
    intro queue visited mf v mm h hq hv hm
    cases queue with
    | nil =>
      injection h with h
      injection h with h1 h2
      rw [← h1, ← h2]
      exact ⟨hv, hm⟩
    | cons q rest => exact absurd h (by simp [bfsLoop])
  | succ n ih =>
    intro queue visited mf v mm h hq hv hm
    cases queue with
    | nil =>
      injection h with h
      injection h with h1 h2
      rw [← h1, ← h2]
      exact ⟨hv, hm⟩
    | cons q rest =>
      obtain ⟨k, d⟩ := q
      have hrest : ∀ p ∈ rest, p.2 ≤ maxD :=
        fun p hp => hq p (List.mem_cons.mpr (Or.inr hp))
      have hd0 : d ≤ maxD := hq (k, d) (List.mem_cons_self _ _)
      rw [show bfsLoop state maxD (n + 1) ((k, d) :: rest) visited mf =
          (if mhas visited k then bfsLoop state maxD n rest visited mf
          else if d < maxD then
            match mget state.forward k with
            | some targets =>
              bfsLoop state maxD n (rest ++ (expandTargets state d targets mf).1)
                (visited ++ [(k, d)]) (expandTargets state d targets mf).2
            | none => bfsLoop state maxD n rest (visited ++ [(k, d)]) mf
          else bfsLoop state maxD n rest (visited ++ [(k, d)]) mf) from rfl] at h
      by_cases hvk : mhas visited k = true
      · rw [if_pos hvk] at h
        exact ih rest visited mf v mm h hrest hv hm
      · rw [if_neg hvk] at h
        have hv2 : ∀ p ∈ visited ++ [(k, d)], p.2 ≤ maxD := by
          intro p hp
          rcases List.mem_append.mp hp with hp | hp
          · exact hv p hp
          · rw [List.mem_singleton.mp hp]
            exact hd0
        have hm2 : ∀ x ∈ mf, mget state.notes x = none ∧
            ∃ kd ∈ visited ++ [(k, d)], kd.2 < maxD ∧ x ∈ adjSet state.forward kd.1 := by
          intro x hx
          obtain ⟨hn, kd, hkd, hlt, hadj⟩ := hm x hx
          exact ⟨hn, kd, List.mem_append.mpr (Or.inl hkd), hlt, hadj⟩
        by_cases hd : d < maxD
        · rw [if_pos hd] at h
          cases hfw : mget state.forward k with
          | some targets =>
            rw [hfw] at h
            obtain ⟨hc1, hc2, _⟩ :=
              expandStep_fold_char state d targets ([], mf)
            have hq2 : ∀ p ∈ rest ++ (expandTargets state d targets mf).1, p.2 ≤ maxD := by
              intro p hp
              rcases List.mem_append.mp hp with hp | hp
              · exact hrest p hp
              · rcases hc1 p hp with hnil | ⟨hdp, _, _⟩
                · cases hnil
                · rw [hdp]; omega
            have hm3 : ∀ x ∈ (expandTargets state d targets mf).2,
                mget state.notes x = none ∧
                ∃ kd ∈ visited ++ [(k, d)], kd.2 < maxD ∧ x ∈ adjSet state.forward kd.1 := by
              intro x hx
              rcases hc2 x hx with hold | ⟨ht, hnot⟩
              · exact hm2 x hold
              · refine ⟨(mhas_false_iff _ _).mp hnot,
                  (k, d), List.mem_append.mpr (Or.inr (List.mem_singleton.mpr rfl)), hd, ?_⟩
                unfold adjSet
                rw [hfw]
                exact ht
            exact ih _ _ _ v mm h hq2 hv2 hm3
          | none =>
            rw [hfw] at h
            exact ih _ _ _ v mm h hrest hv2 hm2
        · rw [if_neg hd] at h
          exact ih _ _ _ v mm h hrest hv2 hm2

/-- Membership is invariant under sorted insertion. -/
theorem mem_insertSorted {α : Type} (le : α → α → Bool) (x a : α) :
    ∀ (l : List α), a ∈ insertSorted le x l ↔ a = x ∨ a ∈ l := by
  intro l
  induction l with
  | nil => simp [insertSorted]
  | cons y ys ih =>
    unfold insertSorted
    by_cases hxy : le x y = true
    · simp [hxy]
    · simp only [if_neg hxy, List.mem_cons, ih]
      constructor
      · rintro (rfl | rfl | h)
        · exact Or.inr (Or.inl rfl)
        · exact Or.inl rfl
        · exact Or.inr (Or.inr h)
      · rintro (rfl | rfl | h)
        · exact Or.inr (Or.inl rfl)
        · exact Or.inl rfl
        · exact Or.inr (Or.inr h)

/-- Membership is invariant under the sort. -/
theorem mem_sortBy {α : Type} (le : α → α → Bool) (a : α) :
    ∀ (l : List α), a ∈ sortBy le l ↔ a ∈ l := by
  intro l
  induction l with
  | nil => simp [sortBy]
  | cons x xs ih =>
    unfold sortBy
    rw [mem_insertSorted, ih]
    simp

/-- A successful `mapM` over `Option` maps members to members, both ways. -/
theorem mapM_option_mem {α β : Type} (f : α → Option β) :
    ∀ (l : List α) (r : List β), l.mapM f = some r →
      (∀ a ∈ l, ∃ b ∈ r, f a = some b) ∧ (∀ b ∈ r, ∃ a ∈ l, f a = some b) := by
  intro l
  induction l with
  | nil =>
    intro r h
    have hr : r = [] := by
      have : (some [] : Option (List β)) = some r := h
      injection this with h1
      exact h1.symm
    rw [hr]
    exact ⟨fun a ha => absurd ha (List.not_mem_nil a), fun b hb => absurd hb (List.not_mem_nil b)⟩
  | cons a l ih =>
    intro r h
    rw [List.mapM_cons] at h
    cases hfa : f a with
    | none => rw [hfa] at h; simp at h
    | some b =>
      rw [hfa] at h
      cases hml : l.mapM f with
      | none => rw [hml] at h; simp at h
      | some bs =>
        rw [hml] at h
        simp at h
        obtain ⟨ih1, ih2⟩ := ih bs hml
        rw [← h]
        constructor
        · intro x hx
          rcases List.mem_cons.mp hx with rfl | hx'
          · exact ⟨b, List.mem_cons_self _ _, hfa⟩
          · obtain ⟨c, hc, hfc⟩ := ih1 x hx'
            exact ⟨c, List.mem_cons.mpr (Or.inr hc), hfc⟩
        · intro y hy
          rcases List.mem_cons.mp hy with rfl | hy'
          · exact ⟨a, List.mem_cons_self _ _, hfa⟩
          · obtain ⟨c, hc, hfc⟩ := ih2 y hy'
            exact ⟨c, List.mem_cons.mpr (Or.inr hc), hfc⟩

/-- The first dequeued key, if unvisited, ends up in the visited map at its
queued depth. -/
theorem bfsLoop_start_visited (state : GraphState) (maxD : Nat) (fuel : Nat)
    (hfuel : fuel ≠ 0) (k : String) (d : Nat) (rest visited : List (String × Nat))
    (mf : List String) (v : List (String × Nat)) (mm : List String)
    (h : bfsLoop state maxD fuel ((k, d) :: rest) visited mf = some (v, mm))
    (hvk : mhas visited k = false) : (k, d) ∈ v := by
  cases fuel with
  | zero => exact absurd rfl hfuel
  | succ n =>
    rw [show bfsLoop state maxD (n + 1) ((k, d) :: rest) visited mf =
        (if mhas visited k then bfsLoop state maxD n rest visited mf
        else if d < maxD then
          match mget state.forward k with
          | some targets =>
            bfsLoop state maxD n (rest ++ (expandTargets state d targets mf).1)
              (visited ++ [(k, d)]) (expandTargets state d targets mf).2
          | none => bfsLoop state maxD n rest (visited ++ [(k, d)]) mf
        else bfsLoop state maxD n rest (visited ++ [(k, d)]) mf) from rfl] at h
    rw [if_neg (by simp [hvk])] at h
    have hin : (k, d) ∈ visited ++ [(k, d)] :=
      List.mem_append.mpr (Or.inr (List.mem_singleton.mpr rfl))
    by_cases hd : d < maxD
    · rw [if_pos hd] at h
      cases hfw : mget state.forward k with
      | some targets =>
        rw [hfw] at h
        exact bfsLoop_mono state maxD n _ _ _ v mm h (k, d) hin
      | none =>
        rw [hfw] at h
        exact bfsLoop_mono state maxD n _ _ _ v mm h (k, d) hin
    · rw [if_neg hd] at h
      exact bfsLoop_mono state maxD n _ _ _ v mm h (k, d) hin

/-- C9: every successful traversal respects the depth bound: no returned
node exceeds `maxDepth`, some returned node (the root) sits at depth 0, and
every missing-link record was generated by expanding a returned node of
depth strictly below `maxDepth` — nodes at `maxDepth` are not expanded. -/
theorem traverse_depth_bounded (noteName : String) (maxDepth : Nat) (state : GraphState)
    (hwf : ∀ p ∈ state.notes, p.1 = normalize p.2.name)
    (root : String) (d : Nat) (ns : List TraverseNode) (ms : List MissingRecord)
    (h : traverse noteName maxDepth state = TraverseResult.ok root d ns ms) :
    (∀ node ∈ ns, node.depth ≤ maxDepth) ∧
    (∃ node ∈ ns, node.depth = 0) ∧
    (∀ m ∈ ms, mget state.notes m.name = none ∧
      ∃ node ∈ ns, node.depth < maxDepth ∧
        m.name ∈ adjSet state.forward (normalize node.name)) := by
  unfold traverse at h
  cases hres : resolve noteName state with
  | none =>
    simp only [hres] at h
    exact TraverseResult.noConfusion h
  | some startNote =>
    simp only [hres] at h
    cases hbfs : bfsLoop state maxDepth (bfsFuel state (normalize noteName))
        [(normalize noteName, 0)] [] [] with
    | none =>
      simp only [hbfs] at h
      exact TraverseResult.noConfusion h
    | some pr =>
      obtain ⟨visited, mm⟩ := pr
      simp only [hbfs] at h
      cases hmap : visited.mapM (fun kd =>
          (mget state.notes kd.1).map (fun note =>
            ({ name := note.name, path := note.path, depth := kd.2,
               frontmatter := note.frontmatter, tags := note.tags } : TraverseNode))) with
      | none =>
        simp only [hmap] at h
        exact TraverseResult.noConfusion h
      | some nodes =>
        simp only [hmap] at h
        simp only [TraverseResult.ok.injEq] at h
        obtain ⟨_, _, hns, hms⟩ := h
        have hinv := bfsLoop_invariant state maxDepth _ _ _ _ _ _ hbfs
          (by intro p hp
              rw [List.mem_singleton.mp hp]
              exact Nat.zero_le _)
          (by intro p hp; cases hp)
          (by intro x hx; cases hx)
        obtain ⟨hdep, hmiss⟩ := hinv
        obtain ⟨hfwd, hbwd⟩ := mapM_option_mem _ visited nodes hmap
        refine ⟨?_, ?_, ?_⟩
        · intro node hnode
          rw [← hns] at hnode
          obtain ⟨kd, hkd, hf⟩ := hbwd node ((mem_sortBy nodeLe node nodes).mp hnode)
          obtain ⟨note, _, hnoteq⟩ := Option.map_eq_some'.mp hf
          have : node.depth = kd.2 := by rw [← hnoteq]
          rw [this]
          exact hdep kd hkd
        · have hstart : (normalize noteName, 0) ∈ visited :=
            bfsLoop_start_visited state maxDepth _ (by unfold bfsFuel; omega)
              (normalize noteName) 0 [] [] [] visited mm hbfs (by simp [mhas, mget])
          obtain ⟨node, hnode, hf⟩ := hfwd _ hstart
          obtain ⟨note, _, hnoteq⟩ := Option.map_eq_some'.mp hf
          refine ⟨node, by rw [← hns]; exact (mem_sortBy nodeLe node nodes).mpr hnode, ?_⟩
          rw [← hnoteq]
        · intro m hm
          rw [← hms] at hm
          obtain ⟨x, hx, hxm⟩ := List.mem_map.mp hm
          have hmname : m.name = x := by rw [← hxm]
          obtain ⟨hnone, kd, hkd, hlt, hadj⟩ := hmiss x hx
          obtain ⟨node, hnode, hf⟩ := hfwd kd hkd
          obtain ⟨note, hnoteget, hnoteq⟩ := Option.map_eq_some'.mp hf
          obtain ⟨p, hp, hp1, hp2⟩ := mget_mem state.notes kd.1 note hnoteget
          have hkey : kd.1 = normalize note.name := by
            rw [← hp1, hwf p hp, hp2]
          have hname : node.name = note.name := by rw [← hnoteq]
          have hdepth : node.depth = kd.2 := by rw [← hnoteq]
          refine ⟨by rw [hmname]; exact hnone,
            node, by rw [← hns]; exact (mem_sortBy nodeLe node nodes).mpr hnode, ?_, ?_⟩
          · rw [hdepth]; exact hlt
          · rw [hmname, hname, ← hkey]; exact hadj

/-- Witness for `traverse_depth_bounded` at the two-note fixture, depth 1. -/
theorem traverse_depth_bounded_witness :
    (∀ p ∈ exStateAB.notes, p.1 = normalize p.2.name) ∧
    ((∀ node ∈ [exNodeA, exNodeB], node.depth ≤ 1) ∧
      (∃ node ∈ [exNodeA, exNodeB], node.depth = 0) ∧
      (∀ m ∈ [exMissGhost],
        mget exStateAB.notes m.name = none ∧
        ∃ node ∈ [exNodeA, exNodeB],
          node.depth < 1 ∧ m.name ∈ adjSet exStateAB.forward (normalize node.name))) :=
  ⟨by decide,
   traverse_depth_bounded "note a" 1 exStateAB (by decide) "Note A" 1
     [exNodeA, exNodeB] [exMissGhost] (by decide)⟩

/-- Membership in the deduplication helper. -/
theorem mem_dedupFirstAux :
    ∀ (l seen : List String) (x : String),
      x ∈ dedupFirstAux seen l ↔ x ∈ l ∧ x ∉ seen := by
  intro l
  induction l with
  | nil => intro seen x; simp [dedupFirstAux]
  | cons a tl ih =>
    intro seen x
    unfold dedupFirstAux
    by_cases ha : a ∈ seen
    · rw [if_pos ha, ih]
      simp only [List.mem_cons]
      constructor
      · rintro ⟨h1, h2⟩
        exact ⟨Or.inr h1, h2⟩
      · rintro ⟨h1 | h1, h2⟩
        · exact absurd (h1 ▸ ha) h2
        · exact ⟨h1, h2⟩
    · rw [if_neg ha]
      simp only [List.mem_cons, ih]
      constructor
      · rintro (rfl | ⟨h1, h2⟩)
        · exact ⟨Or.inl rfl, ha⟩
        · exact ⟨Or.inr h1, fun hs => h2 (Or.inr hs)⟩
      · rintro ⟨rfl | h1, h2⟩
        · exact Or.inl rfl
        · by_cases hxa : x = a
          · exact Or.inl hxa
          · refine Or.inr ⟨h1, ?_⟩
            intro hs
            rcases hs with h | h
            · exact hxa h
            · exact h2 h

/-- The deduplication helper produces distinct elements. -/
theorem nodup_dedupFirstAux : ∀ (l seen : List String), (dedupFirstAux seen l).Nodup := by
  intro l
  induction l with
  | nil => intro seen; exact List.nodup_nil
  | cons a tl ih =>
    intro seen
    unfold dedupFirstAux
    by_cases ha : a ∈ seen
    · rw [if_pos ha]
      exact ih seen
    · rw [if_neg ha]
      refine List.nodup_cons.mpr ⟨?_, ih (a :: seen)⟩
      rw [mem_dedupFirstAux]
      rintro ⟨_, h2⟩
      exact h2 (List.mem_cons_self _ _)

/-- `dedupFirst` preserves membership. -/
theorem mem_dedupFirst (l : List String) (x : String) : x ∈ dedupFirst l ↔ x ∈ l := by
  unfold dedupFirst
  rw [mem_dedupFirstAux]
  simp

/-- `dedupFirst` produces distinct elements. -/
theorem nodup_dedupFirst (l : List String) : (dedupFirst l).Nodup :=
  nodup_dedupFirstAux l []

/-- Key presence after appending a single fresh binding. -/
theorem mhas_append_single {α : Type} (m : JsMap α) (k : String) (d : α) (x : String) :
    mhas (m ++ [(k, d)]) x = (mhas m x || decide (k = x)) := by
  unfold mhas
  rw [mget_append]
  cases mget m x <;> by_cases hkx : k = x <;> simp [mget, hkx]

/-- `unvisitedWeight` depends only on which universe keys are visited. -/
theorem unvisitedWeight_congr (state : GraphState) (v1 v2 : List (String × Nat)) :
    ∀ (u : List String), (∀ x ∈ u, mhas v1 x = mhas v2 x) →
      unvisitedWeight state v1 u = unvisitedWeight state v2 u := by
  intro u
  induction u with
  | nil => intro _; rfl
  | cons a rest ih =>
    intro h
    unfold unvisitedWeight
    rw [h a (List.mem_cons_self _ _), ih (fun x hx => h x (List.mem_cons.mpr (Or.inr hx)))]

/-- Visiting an unvisited key of the universe moves its weight out of the
unvisited total: the measure drops by exactly `1 + degree`. -/
theorem unvisitedWeight_split (state : GraphState) (visited : List (String × Nat))
    (k : String) (d : Nat) :
    ∀ (u : List String), u.Nodup → k ∈ u → mhas visited k = false →
      unvisitedWeight state visited u =
        unvisitedWeight state (visited ++ [(k, d)]) u + (1 + degreeOf state k) := by
  intro u
  induction u with
  | nil => intro _ hk; cases hk
  | cons a rest ih =>
    intro hnd hk hnv
    simp only [List.nodup_cons] at hnd
    unfold unvisitedWeight
    rcases List.mem_cons.mp hk with rfl | hk'
    · have h2 : mhas (visited ++ [(k, d)]) k = true := by
        rw [mhas_append_single]
        simp
      have hrest : unvisitedWeight state (visited ++ [(k, d)]) rest =
          unvisitedWeight state visited rest := by
        apply unvisitedWeight_congr
        intro x hx
        rw [mhas_append_single]
        have hne : ¬(k = x) := fun he => hnd.1 (he ▸ hx)
        simp [hne]
      rw [hnv, h2, hrest]
      simp
      omega
    · have hak : ¬(k = a) := fun he => hnd.1 (he ▸ hk')
      have hsame : mhas (visited ++ [(k, d)]) a = mhas visited a := by
        rw [mhas_append_single]
        simp [hak]
      rw [hsame, ih hnd.2 hk' hnv]
      omega

/-- Fuel covering the queue plus the weight of the unvisited key universe is
enough for the BFS loop to run to completion: each iteration pops one entry,
and enqueueing happens only from newly visited universe keys, at most one
entry per forward edge. -/
theorem bfsLoop_sufficient (state : GraphState) (maxD : Nat) (u : List String)
    (hu : u.Nodup) (hnotes : ∀ t, mhas state.notes t = true → t ∈ u) :
    ∀ (fuel : Nat) (queue visited : List (String × Nat)) (mf : List String),
      (∀ p ∈ queue, p.1 ∈ u) →
      queue.length + unvisitedWeight state visited u ≤ fuel →
      (bfsLoop state maxD fuel queue visited mf).isSome = true := by
  intro fuel
  induction fuel with
  | zero =>
    intro queue visited mf hq hb
    cases queue with
    | nil => rfl
    | cons q rest => simp [List.length_cons] at hb
  | succ n ih =>
    intro queue visited mf hq hb
    cases queue with
    | nil => rfl
    | cons q rest =>
      obtain ⟨k, d⟩ := q
      have hku : k ∈ u := hq (k, d) (List.mem_cons_self _ _)
      have hqrest : ∀ p ∈ rest, p.1 ∈ u := fun p hp => hq p (List.mem_cons.mpr (Or.inr hp))
      have hblen : rest.length + 1 + unvisitedWeight state visited u ≤ n + 1 := by
        simpa [List.length_cons] using hb
      rw [show bfsLoop state maxD (n + 1) ((k, d) :: rest) visited mf =
          (if mhas visited k then bfsLoop state maxD n rest visited mf
          else if d < maxD then
            match mget state.forward k with
            | some targets =>
              bfsLoop state maxD n (rest ++ (expandTargets state d targets mf).1)
                (visited ++ [(k, d)]) (expandTargets state d targets mf).2
            | none => bfsLoop state maxD n rest (visited ++ [(k, d)]) mf
          else bfsLoop state maxD n rest (visited ++ [(k, d)]) mf) from rfl]
      by_cases hvk : mhas visited k = true
      · rw [if_pos hvk]
        exact ih rest visited mf hqrest (by omega)
      · rw [if_neg hvk]
        have hvk' : mhas visited k = false := by
          revert hvk
          cases mhas visited k <;> simp
        have hw := unvisitedWeight_split state visited k d u hu hku hvk'
        by_cases hd : d < maxD
        · rw [if_pos hd]
          cases hfw : mget state.forward k with
          | some targets =>
            obtain ⟨hc1, _, hc3⟩ := expandStep_fold_char state d targets ([], mf)
            have hdeg : degreeOf state k = targets.length := by
              unfold degreeOf
              rw [hfw]
              rfl
            refine ih _ _ _ ?_ ?_
            · intro p hp
              rcases List.mem_append.mp hp with hp | hp
              · exact hqrest p hp
              · rcases hc1 p hp with hnil | ⟨_, _, hmh⟩
                · cases hnil
                · exact hnotes p.1 hmh
            · have hlen : (expandTargets state d targets mf).1.length ≤ targets.length := by
                have := hc3
                simpa using this
              rw [List.length_append]
              omega
          | none =>
            exact ih rest _ mf hqrest (by omega)
        · rw [if_neg hd]
          exact ih rest _ mf hqrest (by omega)

/-- C10: the BFS loop terminates on every finite graph state: the fuel
`bfsFuel` — the initial queue entry plus one unit per universe key and one
per forward edge — always suffices, so `traverse` never reports fuel
exhaustion (the `while` loop always exits). -/
theorem bfs_terminates (noteName : String) (maxDepth : Nat) (state : GraphState) :
    (bfsLoop state maxDepth (bfsFuel state (normalize noteName))
      [(normalize noteName, 0)] [] []).isSome = true ∧
    traverse noteName maxDepth state ≠ TraverseResult.fuelOut := by
  have hu : (keyUniverse state (normalize noteName)).Nodup := nodup_dedupFirst _
  have hmem : ∀ t, mhas state.notes t = true →
      t ∈ keyUniverse state (normalize noteName) := by
    intro t ht
    unfold keyUniverse
    rw [mem_dedupFirst]
    refine List.mem_cons.mpr (Or.inr ?_)
    unfold mhas at ht
    cases hg : mget state.notes t with
    | none => rw [hg] at ht; cases ht
    | some note =>
      obtain ⟨p, hp, hp1, _⟩ := mget_mem _ _ _ hg
      exact List.mem_map.mpr ⟨p, hp, hp1⟩
  have hstart : normalize noteName ∈ keyUniverse state (normalize noteName) := by
    unfold keyUniverse
    rw [mem_dedupFirst]
    exact List.mem_cons_self _ _
  have hsuff := bfsLoop_sufficient state maxDepth _ hu hmem
    (bfsFuel state (normalize noteName)) [(normalize noteName, 0)] [] []
    (by intro p hp
        rw [List.mem_singleton.mp hp]
        exact hstart)
    (by unfold bfsFuel
        simp)
  refine ⟨hsuff, ?_⟩
  unfold traverse
  cases hres : resolve noteName state with
  | none => simp
  | some startNote =>
    simp only []
    cases hbfs : bfsLoop state maxDepth (bfsFuel state (normalize noteName))
        [(normalize noteName, 0)] [] [] with
    | none =>
      rw [hbfs] at hsuff
      cases hsuff
    | some pr =>
      obtain ⟨visited, mm⟩ := pr
      simp only [hbfs]
      cases hmap : visited.mapM (fun kd =>
          (mget state.notes kd.1).map (fun note =>
            ({ name := note.name, path := note.path, depth := kd.2,
               frontmatter := note.frontmatter, tags := note.tags } : TraverseNode))) with
      | none => simp [hmap]
      | some nodes => simp [hmap]

end VaultKit
